import Mathlib

/-!
Verification of the structure-extraction and section-cache engine of the
mdatlas repository (internal/core/parser.go, internal/core/cache.go,
pkg/types/document.go), as a shallow embedding in Lean 4.

Machine integers are modelled as `Nat` (all quantities involved — line
numbers, counts, timestamps — are small and non-negative in the source).
Byte strings are modelled as `String`; byte lengths are computed from the
UTF-8 sizes of the characters, matching Go's `len` on `[]byte` for valid
UTF-8 input.  Wall-clock time (`time.Now()`) is passed in explicitly as a
`Nat` parameter.  The file system seen by the cache is passed in as an
explicit record of a `stat` function (modification time) and a `read`
function (content), both fallible.
-/

namespace Mdatlas

/-- `types.Section` from pkg/types/document.go. -/
structure Section where
  ID : String
  Level : Nat
  Title : String
  CharCount : Nat
  LineCount : Nat
  StartLine : Nat
  EndLine : Nat
  Children : List Section
deriving Repr, Inhabited

compile_inductive% Section

/-- `types.DocumentStructure` from pkg/types/document.go. -/
structure DocumentStructure where
  FilePath : String
  TotalChars : Nat
  TotalLines : Nat
  Structure : List Section
  LastModified : Nat
deriving Repr, Inhabited

/-- `types.SectionContent` from pkg/types/document.go. -/
structure SectionContent where
  ID : String
  Title : String
  Content : String
  Format : String
  IncludeChildren : Bool
deriving Repr, DecidableEq, Inhabited

/-- Whitespace characters trimmed by Go's `strings.TrimSpace` that can occur
in our setting (ASCII whitespace). -/
def isSpaceChar (c : Char) : Bool :=
  c = ' ' ∨ c = '\t' ∨ c = '\n' ∨ c = '\r'

/-- Go `strings.TrimSpace`: strip leading and trailing whitespace. -/
def trimSpace (s : String) : String :=
  (((s.toList.dropWhile isSpaceChar).reverse.dropWhile isSpaceChar).reverse).asString

/-- Go `strings.Split(content, "\n")`: split on every newline; a trailing
newline yields a trailing empty line, and the empty string yields `[""]`. -/
def splitLines (content : String) : List String :=
  ((content.toList.foldr
    (fun ch (acc : List (List Char)) =>
      if ch = '\n' then [] :: acc
      else
        match acc with
        | [] => [[ch]]
        | l :: ls => (ch :: l) :: ls)
    [[]]).map (fun l => l.asString))

/-- Number of bytes of the UTF-8 encoding of a character (Go byte-length
convention). -/
def charUtf8Len (c : Char) : Nat :=
  if c.toNat < 0x80 then 1
  else if c.toNat < 0x800 then 2
  else if c.toNat < 0x10000 then 3
  else 4

/-- Go `len` on the raw bytes of a string. -/
def byteLen (s : String) : Nat :=
  (s.toList.map charUtf8Len).sum

/-- Go `bytes.Count(content, []byte("\n"))`. -/
def countNewlines (content : String) : Nat :=
  (content.toList.filter (fun c => c = '\n')).length

/-- `generateSectionID` from parser.go.  Modelled from the spec (§4.2): the
source hashes the concatenation `title + strconv.Itoa(level)` with SHA-256
(Go standard library, outside this repository) and formats the first 8 bytes
with the constant prefix `section_`.  The hash step is modelled as the
identity on its input string, which preserves the properties the spec states:
the ID is a pure deterministic function of `(title, level)`, identical
`(title, level)` pairs map to the same ID, and the level participates in the
input so that identical titles at different levels get distinct IDs. -/
def generateSectionID (level : Nat) (title : String) : String :=
  "section_" ++ title ++ toString level

/-- Heading level of a single line, if the line is an ATX heading.  Modelled
from the spec (§2, §6): the syntax-tree parser (goldmark, outside this
repository) reports heading nodes of level 1–6 in document order; an ATX
heading line is 1–6 `#` characters followed by a space or the end of line. -/
def headingLevel (line : String) : Option Nat :=
  let cs := line.toList
  let hashes := cs.takeWhile (fun c => c = '#')
  let rest := cs.dropWhile (fun c => c = '#')
  if 1 ≤ hashes.length ∧ hashes.length ≤ 6 ∧ (rest = [] ∨ rest.head? = some ' ')
  then some hashes.length else none

/-- Title text of a heading line: the text after the `#` marker, with
surrounding whitespace stripped (`extractHeadingText` in parser.go trims the
collected text nodes with `strings.TrimSpace`). -/
def headingTitle (line : String) : String :=
  trimSpace (line.toList.dropWhile (fun c => c = '#')).asString

/-- `extractSection` from parser.go applied to one heading occurrence:
initial `Section` value with `EndLine = StartLine`, `CharCount = 0`,
`LineCount = 1` and no children (all recomputed later by
`calculateSectionBoundaries` / `buildHierarchy`). -/
def initialSection (level : Nat) (title : String) (startLine : Nat) : Section :=
  { ID := generateSectionID level title
    Level := level
    Title := title
    CharCount := 0
    LineCount := 1
    StartLine := startLine
    EndLine := startLine
    Children := [] }

/-- `extractSections` from parser.go: walk the document and collect the
heading occurrences in document order with 1-based start lines
(`getLineNumber` counts the newlines before the heading's source span).
The heading recognition itself is performed by goldmark (outside this
repository) and is modelled from the spec as an ATX-heading line scan. -/
def extractSections (content : String) : List Section :=
  ((splitLines content).zip (List.range (splitLines content).length)).filterMap
    (fun li =>
      match headingLevel li.1 with
      | some lvl => some (initialSection lvl (headingTitle li.1) (li.2 + 1))
      | none => none)

/-- `calculateCharCount` from parser.go: sum of (line byte-length + 1) over
the lines of the span, with the source's out-of-range guard. -/
def calculateCharCount (content : String) (startLine endLine : Nat) : Nat :=
  let lines := splitLines content
  if lines.length < startLine ∨ lines.length < endLine ∨ startLine < 1 then 0
  else
    (((lines.drop (startLine - 1)).take (endLine - (startLine - 1))).map
      (fun l => byteLen l + 1)).sum

/-- One step of `calculateSectionBoundaries` from parser.go: the end line of
a section is one line before the first later occurrence whose level is at
most the section's own, else the document's last line (`len(lines)` of the
`strings.Split` of the content). -/
def boundOne (content : String) (s : Section) (later : List Section) : Section :=
  let totalLines := (splitLines content).length
  let endLine :=
    match later.find? (fun t => decide (t.Level ≤ s.Level)) with
    | some t => t.StartLine - 1
    | none => totalLines
  { s with
    EndLine := endLine
    LineCount := endLine - s.StartLine + 1
    CharCount := calculateCharCount content s.StartLine endLine }

/-- `calculateSectionBoundaries` from parser.go.  The source iterates with an
index and scans forward from `i+1`; each output element depends only on the
element itself and the list of later occurrences, which this recursion
renders directly. -/
def calculateSectionBoundaries (content : String) : List Section → List Section
  | [] => []
  | s :: rest => boundOne content s rest :: calculateSectionBoundaries content rest

/-- One pop of the `buildHierarchy` stack: the finished top section is
attached as the last child of the section below it, or appended to the
result list when it was a root.  In the source the attachment happens at
push time through a pointer into the parent's child slice; since sections
below the top never change while the top is live, attaching the fully built
section at pop time is the same tree (this is the explicit-fold rendering
the spec's §9 prescribes for the pointer pattern). -/
def popOnce (stack : List Section) (result : List Section) (t : Section) :
    List Section × List Section :=
  match stack with
  | [] => ([], result ++ [t])
  | p :: rs => ({ p with Children := p.Children ++ [t] } :: rs, result)

/-- Tail of the `buildHierarchy` pop loop once the former top `child` has
been popped: attach it to the next section down, and keep popping while the
loop condition (top level ≥ incoming level) still holds. -/
def popAux (level : Nat) (child : Section) :
    List Section → List Section → List Section × List Section
  | [], res => ([], res ++ [child])
  | p :: rs, res =>
    let p' := { p with Children := p.Children ++ [child] }
    if level ≤ p'.Level then popAux level p' rs res
    else (p' :: rs, res)

/-- The `for len(stack) > 0 && stack[len(stack)-1].Level >= section.Level`
loop of `buildHierarchy`: pop while the stack's top has level ≥ the incoming
level. -/
def popWhile (level : Nat) (stack : List Section) (res : List Section) :
    List Section × List Section :=
  match stack with
  | [] => ([], res)
  | t :: rest => if level ≤ t.Level then popAux level t rest res else (t :: rest, res)

/-- Processing of one section by `buildHierarchy`: pop the stack down to a
possible ancestor, then push the new section with empty children. -/
def buildStep (acc : List Section × List Section) (s : Section) :
    List Section × List Section :=
  let q := popWhile s.Level acc.1 acc.2
  ({ s with Children := [] } :: q.1, q.2)

/-- End-of-input drain of the `buildHierarchy` stack below its popped top
`child`: every still-open section is closed, bottom-most last. -/
def drainAux (child : Section) : List Section → List Section → List Section
  | [], res => res ++ [child]
  | p :: rs, res => drainAux { p with Children := p.Children ++ [child] } rs res

/-- End-of-input drain of the `buildHierarchy` stack: every still-open
section is closed, bottom-most last. -/
def drain : List Section → List Section → List Section
  | [], res => res
  | t :: rest, res => drainAux t rest res

/-- Run the `buildHierarchy` main loop from a given stack/result state and
close the stack at the end. -/
def finishFold (stack : List Section) (res : List Section) (l : List Section) :
    List Section :=
  let q := l.foldl buildStep (stack, res)
  drain q.1 q.2

/-- `buildHierarchy` from parser.go: fold the flat, boundary-annotated list
into a forest with an explicit stack of open sections (including the
source's early return on an empty input). -/
def buildHierarchy (sections : List Section) : List Section :=
  if sections.isEmpty then sections else finishFold [] [] sections

/-- `ParseStructure` from parser.go.  `now` is the wall-clock instant the
source reads with `time.Now()` for the `LastModified` field. -/
def ParseStructure (content : String) (now : Nat) : DocumentStructure :=
  { FilePath := ""
    TotalChars := byteLen content
    TotalLines := countNewlines content + 1
    Structure := buildHierarchy (calculateSectionBoundaries content (extractSections content))
    LastModified := now }

/-- `ParseStructure`'s full Go signature `(*DocumentStructure, error)`: the
source ends with `return structure, nil` on every path, so the fallible
wrapper always succeeds. -/
def ParseStructureE (content : String) (now : Nat) : Except String DocumentStructure :=
  .ok (ParseStructure content now)

/-- Fuelled form of `findSection` (the fuel argument makes the recursion
over the nested `Section` tree structural, hence kernel-computable; a fuel
of `sizeOf` the forest is always sufficient, see `findSection_cons`). -/
def findFuel : Nat → List Section → String → Option Section
  | 0, _, _ => none
  | fuel + 1, l, sectionID =>
    match l with
    | [] => none
    | s :: rest =>
      if s.ID = sectionID then some s
      else
        match findFuel fuel s.Children sectionID with
        | some found => some found
        | none => findFuel fuel rest sectionID

/-- `findSection` from parser.go: depth-first search by ID — each section is
compared before its children, children before later siblings. -/
def findSection (l : List Section) (sectionID : String) : Option Section :=
  findFuel (sizeOf l) l sectionID

/-- Fuelled form of `flattenSections` (see `findFuel`). -/
def flattenFuel : Nat → List Section → List Section
  | 0, _ => []
  | fuel + 1, l =>
    match l with
    | [] => []
    | s :: rest => s :: (flattenFuel fuel s.Children ++ flattenFuel fuel rest)

/-- `flattenSections` from parser.go: pre-order flattening of the forest. -/
def flattenSections (l : List Section) : List Section :=
  flattenFuel (sizeOf l) l

/-- The `found` flag pattern of `findSectionEnd`: the elements strictly after
the first element whose ID matches (empty when no element matches). -/
def afterTarget (targetID : String) : List Section → List Section
  | [] => []
  | s :: rest => if s.ID = targetID then rest else afterTarget targetID rest

/-- `findSectionEnd` from parser.go: after locating the target by ID, the
first loop returns one line before the first later section with a strictly
deeper level; failing that, the second loop returns one line before the
first later section at the same or a shallower level; failing that, the
target's own recorded end line. -/
def findSectionEnd (sections : List Section) (target : Section) : Nat :=
  match (afterTarget target.ID sections).find?
      (fun s => decide (target.Level < s.Level)) with
  | some s => s.StartLine - 1
  | none =>
    match (afterTarget target.ID sections).find?
        (fun s => decide (s.Level ≤ target.Level)) with
    | some s => s.StartLine - 1
    | none => target.EndLine

/-- `GetSectionContent` from parser.go: re-parse the content, locate the
section depth-first by ID (error string `section not found: <id>` when
absent, matching the source's `fmt.Errorf`), then slice the content lines:
with `includeChildren` the section's recorded span, otherwise the span
computed by `findSectionEnd` over the pre-order flattening, capped at the
number of lines. -/
def GetSectionContent (content : String) (sectionID : String)
    (includeChildren : Bool) (now : Nat) : Except String SectionContent :=
  let st := ParseStructure content now
  match findSection st.Structure sectionID with
  | none => .error ("section not found: " ++ sectionID)
  | some s =>
    let base : SectionContent :=
      { ID := s.ID, Title := s.Title, Content := "", Format := "markdown"
        IncludeChildren := includeChildren }
    let lines := splitLines content
    if 0 < s.StartLine ∧ s.StartLine ≤ lines.length then
      let endLine0 :=
        if includeChildren then s.EndLine
        else findSectionEnd (flattenSections st.Structure) s
      let endLine := if lines.length < endLine0 then lines.length else endLine0
      .ok { base with
        Content :=
          String.intercalate "\n"
            ((lines.drop (s.StartLine - 1)).take (endLine - (s.StartLine - 1))) }
    else .ok base

/-! ## The cache (internal/core/cache.go)

The file system the cache observes is passed in explicitly: `stat` yields a
file's modification time (`os.Stat`), `read` its content (`os.ReadFile`);
both can fail.  The content hash (`crypto/md5`, Go standard library,
outside this repository) is an explicit function parameter `hash`
throughout.  Timestamps are `Nat`; the Go zero `time.Time` is `0`. -/

/-- The file system visible to the cache. -/
structure FileSystem where
  stat : String → Option Nat
  read : String → Option String

/-- `CacheEntry` from cache.go. -/
structure CacheEntry where
  Structure : DocumentStructure
  LastAccessed : Nat
  FileModTime : Nat
  FileHash : String
deriving Repr, Inhabited

/-- `Cache` from cache.go.  The mutex is concurrency control with no
sequential semantics; the Go map is rendered as an association list whose
keys are kept unique by construction. -/
structure Cache where
  structures : List (String × CacheEntry)
  maxSize : Nat
  ttl : Nat
deriving Repr, Inhabited

/-- `NewCache` from cache.go: a non-positive max size or TTL falls back to
the defaults (100 entries, 30 minutes).  With `Nat` arguments the Go guard
`maxSize <= 0` is the case `maxSize = 0`. -/
def NewCache (maxSize : Nat) (ttl : Nat) : Cache :=
  { structures := []
    maxSize := if maxSize = 0 then 100 else maxSize
    ttl := if ttl = 0 then 30 * 60 else ttl }

/-- `calculateFileHash` from cache.go: read the file and hash its content
(the hash itself is the parameter `hash`). -/
def calculateFileHash (hash : String → String) (fs : FileSystem)
    (filePath : String) : Option String :=
  (fs.read filePath).map hash

/-- `isFileUnchanged` from cache.go: stat failure counts as changed; then
the modification time is compared; only if it matches is the content hash
recomputed and compared. -/
def isFileUnchanged (hash : String → String) (fs : FileSystem)
    (filePath : String) (entry : CacheEntry) : Bool :=
  match fs.stat filePath with
  | none => false
  | some mt =>
    if mt ≠ entry.FileModTime then false
    else
      match calculateFileHash hash fs filePath with
      | none => false
      | some h => decide (h = entry.FileHash)

/-- Go map read `c.structures[filePath]` on the association-list rendering. -/
def lookupEntry : List (String × CacheEntry) → String → Option CacheEntry
  | [], _ => none
  | kv :: rest, k => if kv.1 = k then some kv.2 else lookupEntry rest k

/-- `GetStructure` from cache.go: miss on absence, on TTL expiry since last
access, and on a failed freshness check; a hit refreshes the entry's
last-access time (an in-place mutation in the source, rendered as the
returned cache value) and returns the stored structure. -/
def GetStructure (hash : String → String) (fs : FileSystem) (now : Nat)
    (c : Cache) (filePath : String) : Option DocumentStructure × Cache :=
  match lookupEntry c.structures filePath with
  | none => (none, c)
  | some entry =>
    if c.ttl < now - entry.LastAccessed then (none, c)
    else if isFileUnchanged hash fs filePath entry = false then (none, c)
    else
      (some entry.Structure,
       { c with structures := c.structures.map fun kv =>
          if kv.1 = filePath then (kv.1, { kv.2 with LastAccessed := now }) else kv })

/-- One iteration of the `oldestKey`/`oldestTime` scan of `evictLRU` from
cache.go, including the source's `oldestTime.IsZero()` re-test on every
iteration (the Go zero `time.Time` is `0`). -/
def lruStep (acc : String × Nat) (kv : String × CacheEntry) : String × Nat :=
  if acc.2 = 0 ∨ kv.2.LastAccessed < acc.2 then (kv.1, kv.2.LastAccessed) else acc

/-- The `oldestKey`/`oldestTime` scan of `evictLRU` from cache.go. -/
def lruScan (structures : List (String × CacheEntry)) : String × Nat :=
  structures.foldl lruStep ("", 0)

/-- `evictLRU` from cache.go: remove the entry with the oldest last-access
time (`delete` of one key on a unique-key table is `filter`). -/
def evictLRU (c : Cache) : Cache :=
  match c.structures with
  | [] => c
  | _ :: _ =>
    let oldest := lruScan c.structures
    if oldest.1 ≠ "" then
      { c with structures := c.structures.filter (fun kv => decide (kv.1 ≠ oldest.1)) }
    else c

/-- `SetStructure` from cache.go: skip entirely when stat or hash fails;
evict the least-recently-used entry when the table is at capacity; then
store the entry (overwriting any entry under the same key) with the
observed modification time and content hash. -/
def SetStructure (hash : String → String) (fs : FileSystem) (now : Nat)
    (c : Cache) (filePath : String) (st : DocumentStructure) : Cache :=
  match fs.stat filePath with
  | none => c
  | some mt =>
    match calculateFileHash hash fs filePath with
    | none => c
    | some h =>
      let c1 := if c.maxSize ≤ c.structures.length then evictLRU c else c
      let entry : CacheEntry :=
        { Structure := st, LastAccessed := now, FileModTime := mt, FileHash := h }
      { c1 with structures :=
          (c1.structures.filter (fun kv => decide (kv.1 ≠ filePath))) ++ [(filePath, entry)] }

/-- `InvalidateStructure` from cache.go. -/
def InvalidateStructure (c : Cache) (filePath : String) : Cache :=
  { c with structures := c.structures.filter (fun kv => decide (kv.1 ≠ filePath)) }

/-- `Clear` from cache.go. -/
def Clear (c : Cache) : Cache :=
  { c with structures := [] }

/-- `Size` from cache.go. -/
def Size (c : Cache) : Nat :=
  c.structures.length

/-- One sequential cache operation (for stating whole-history invariants). -/
inductive CacheOp where
  | set (fs : FileSystem) (now : Nat) (filePath : String) (st : DocumentStructure)
  | get (fs : FileSystem) (now : Nat) (filePath : String)
  | invalidate (filePath : String)
  | clear

/-- Apply one cache operation. -/
def applyOp (hash : String → String) (c : Cache) : CacheOp → Cache
  | .set fs now p st => SetStructure hash fs now c p st
  | .get fs now p => (GetStructure hash fs now c p).2
  | .invalidate p => InvalidateStructure c p
  | .clear => Clear c

/-- Apply a sequence of cache operations in order. -/
def runOps (hash : String → String) (c : Cache) (ops : List CacheOp) : Cache :=
  ops.foldl (applyOp hash) c

/-- An operation's file system cannot stat the empty path (true of `os.Stat`
on every real system: the empty path name yields `ENOENT`). -/
def statEmptyFails : CacheOp → Prop
  | .set fs _ _ _ => fs.stat "" = none
  | _ => True

/-! ## Auxiliary notions used in theorem statements -/

/-- Forget a section's children (used to compare tree nodes with the flat
occurrence they were built from). -/
def eraseChildren (s : Section) : Section :=
  { s with Children := [] }

/-- The fields of a heading occurrence that the boundary calculation leaves
untouched. -/
def occKey (s : Section) : String × Nat × String × Nat :=
  (s.ID, s.Level, s.Title, s.StartLine)

/-- All (parent, direct child) pairs of a forest. -/
def pairsOf (l : List Section) : List (Section × Section) :=
  ((flattenSections l).map (fun p => p.Children.map (fun c => (p, c)))).flatten

/-- Recursive characterisation of `buildHierarchy` used by the proofs: a
head section's subtree is built from the maximal run of strictly deeper
following sections, its later siblings from the rest. -/
def buildSpan : List Section → List Section
  | [] => []
  | s :: rest =>
    { s with Children := buildSpan (rest.takeWhile (fun t => decide (s.Level < t.Level))) } ::
      buildSpan (rest.dropWhile (fun t => decide (s.Level < t.Level)))
termination_by l => l.length
decreasing_by
  all_goals simp only [List.length_cons]
  · exact Nat.lt_succ_of_le (List.takeWhile_sublist _).length_le
  · exact Nat.lt_succ_of_le (List.dropWhile_sublist _).length_le

/-! ## Concrete inputs used by scenario claims and witnesses -/

/-- The spec's §8 scenario input. -/
def c1input : String := "# A\n\n## B\n\ntext\n\n## C\n"

/-- A document whose section `B` has no children but is followed by a
deeper section (`### D`) nested under its sibling `C`. -/
def c3input : String := "# A\n## B\nb\n## C\nc\n### D\nd\n"

/-- A concrete hash function for witnesses (the development is parametric
in the hash). -/
def hashId : String → String := fun s => s

/-- A one-file file system for witnesses. -/
def fsA : FileSystem :=
  { stat := fun p => if p = "a.md" then some 5 else none
    read := fun p => if p = "a.md" then some "# T\n" else none }

/-- The same file after its content (and modification time) changed. -/
def fsB : FileSystem :=
  { stat := fun p => if p = "a.md" then some 9 else none
    read := fun p => if p = "a.md" then some "# U\n" else none }

/-- A structure value to store in cache witnesses. -/
def docT : DocumentStructure := ParseStructure "# T\n" 3

/-- A two-entry cache at capacity, for the eviction witness; the entry for
`old.md` is the least recently accessed. -/
def c7cache : Cache :=
  { structures :=
      [("old.md", { Structure := docT, LastAccessed := 1, FileModTime := 1, FileHash := "x" }),
       ("new.md", { Structure := docT, LastAccessed := 4, FileModTime := 2, FileHash := "y" })]
    maxSize := 2
    ttl := 60 }

end Mdatlas

namespace Mdatlas

/-! # Theorems

First the proven unfolding equations of the fuelled tree recursions, then
the claims. -/

theorem sizeOf_children_lt (s : Section) : sizeOf s.Children < sizeOf s := by
  cases s; simp; try omega

theorem sizeOf_list_pos (l : List Section) : 1 ≤ sizeOf l := by
  cases l <;> (simp; try omega)

theorem findFuel_congr : ∀ f g : Nat, ∀ l : List Section, ∀ sid : String,
    sizeOf l ≤ f → sizeOf l ≤ g → findFuel f l sid = findFuel g l sid
  | 0, _, l, _, hf, _ => absurd (Nat.le_trans (sizeOf_list_pos l) hf) (by omega)
  | _ + 1, 0, l, _, _, hg => absurd (Nat.le_trans (sizeOf_list_pos l) hg) (by omega)
  | f + 1, g + 1, [], _, _, _ => rfl
  | f + 1, g + 1, s :: rest, sid, hf, hg => by
    have hcons : sizeOf (s :: rest) = 1 + sizeOf s + sizeOf rest := by simp
    have hsf : sizeOf s.Children ≤ f :=
      Nat.le_trans (Nat.le_of_lt (sizeOf_children_lt s)) (by omega)
    have hsg : sizeOf s.Children ≤ g :=
      Nat.le_trans (Nat.le_of_lt (sizeOf_children_lt s)) (by omega)
    have hrf : sizeOf rest ≤ f := by omega
    have hrg : sizeOf rest ≤ g := by omega
    simp only [findFuel]
    rw [findFuel_congr f g s.Children sid hsf hsg, findFuel_congr f g rest sid hrf hrg]

theorem findSection_nil (sid : String) : findSection [] sid = none := rfl

theorem findSection_cons (s : Section) (rest : List Section) (sid : String) :
    findSection (s :: rest) sid =
      if s.ID = sid then some s
      else
        match findSection s.Children sid with
        | some found => some found
        | none => findSection rest sid := by
  unfold findSection
  rw [show sizeOf (s :: rest) = (sizeOf s + sizeOf rest) + 1 from by simp; omega]
  simp only [findFuel]
  rw [findFuel_congr (sizeOf s + sizeOf rest) (sizeOf s.Children) s.Children sid
      (Nat.le_trans (Nat.le_of_lt (sizeOf_children_lt s)) (Nat.le_add_right _ _)) (Nat.le_refl _),
    findFuel_congr (sizeOf s + sizeOf rest) (sizeOf rest) rest sid
      (Nat.le_add_left _ _) (Nat.le_refl _)]

theorem flattenFuel_congr : ∀ f g : Nat, ∀ l : List Section,
    sizeOf l ≤ f → sizeOf l ≤ g → flattenFuel f l = flattenFuel g l
  | 0, _, l, hf, _ => absurd (Nat.le_trans (sizeOf_list_pos l) hf) (by omega)
  | _ + 1, 0, l, _, hg => absurd (Nat.le_trans (sizeOf_list_pos l) hg) (by omega)
  | f + 1, g + 1, [], _, _ => rfl
  | f + 1, g + 1, s :: rest, hf, hg => by
    have hcons : sizeOf (s :: rest) = 1 + sizeOf s + sizeOf rest := by simp
    have hsf : sizeOf s.Children ≤ f :=
      Nat.le_trans (Nat.le_of_lt (sizeOf_children_lt s)) (by omega)
    have hsg : sizeOf s.Children ≤ g :=
      Nat.le_trans (Nat.le_of_lt (sizeOf_children_lt s)) (by omega)
    have hrf : sizeOf rest ≤ f := by omega
    have hrg : sizeOf rest ≤ g := by omega
    simp only [flattenFuel]
    rw [flattenFuel_congr f g s.Children hsf hsg, flattenFuel_congr f g rest hrf hrg]

theorem flattenSections_nil : flattenSections [] = [] := rfl

theorem flattenSections_cons (s : Section) (rest : List Section) :
    flattenSections (s :: rest) =
      s :: (flattenSections s.Children ++ flattenSections rest) := by
  unfold flattenSections
  rw [show sizeOf (s :: rest) = (sizeOf s + sizeOf rest) + 1 from by simp; omega]
  simp only [flattenFuel]
  rw [flattenFuel_congr (sizeOf s + sizeOf rest) (sizeOf s.Children) s.Children
      (Nat.le_trans (Nat.le_of_lt (sizeOf_children_lt s)) (Nat.le_add_right _ _)) (Nat.le_refl _),
    flattenFuel_congr (sizeOf s + sizeOf rest) (sizeOf rest) rest
      (Nat.le_add_left _ _) (Nat.le_refl _)]

/-! ## C1 — the §8 scenario -/

/-- C1 (counterexample): on the input `"# A\n\n## B\n\ntext\n\n## C\n"` the
extractor does NOT produce `A.end_line = 7`, `B.end_line = 4`,
`C.end_line = 7` as the claim states: the computed end lines are 8, 6 and 8
(the trailing newline makes the `strings.Split` line count 8, and `B` ends
one line before `C` starts). -/
theorem C1_counterexample :
    ¬ ((((ParseStructure c1input 0).Structure.map fun s => (s.Title, s.EndLine))
          = [("A", 7)]) ∧
       (((ParseStructure c1input 0).Structure.map fun s =>
            s.Children.map fun c => (c.Title, c.EndLine))
          = [[("B", 4), ("C", 7)]])) := by
  decide

/-- C1 (amended): on the input `"# A\n\n## B\n\ntext\n\n## C\n"` structure
extraction produces a single top-level section `A` (level 1) with exactly
the two children `B` and `C` (level 2), and the computed boundaries are
`A.end_line = 8`, `B.end_line = 6`, `C.end_line = 8`. -/
theorem C1_scenario :
    (((ParseStructure c1input 0).Structure.map fun s => (s.Title, s.Level, s.EndLine))
        = [("A", 1, 8)]) ∧
    (((ParseStructure c1input 0).Structure.map fun s =>
        s.Children.map fun c => (c.Title, c.Level, c.EndLine))
        = [[("B", 2, 6), ("C", 2, 8)]]) := by
  decide

/-! ## C3 — section content resolution with `includeChildren = false` -/

/-- C3 (code evaluated at the failing input): section `B` of `c3input` has
no children and its recorded span is lines 2–3, so by the claim resolving it
with `includeChildren = false` must return exactly lines 2–3 (`"## B\nb"`) —
but `GetSectionContent` returns lines 2–5, which include the sibling
section `C`'s heading and body.  (The first loop of `findSectionEnd` stops
at the first later section with a deeper level — here `### D`, a child of
the sibling `C` — without checking that it belongs to the target.)  With
`includeChildren = true` the recorded span is returned, as the claim
states. -/
theorem C3_code_bug :
    GetSectionContent c3input "section_B2" false 0 =
      .ok { ID := "section_B2", Title := "B", Content := "## B\nb\n## C\nc",
            Format := "markdown", IncludeChildren := false } ∧
    (((ParseStructure c3input 0).Structure.map fun s =>
        s.Children.map fun c => (c.Title, c.EndLine, c.Children.length))
        = [[("B", 3, 0), ("C", 8, 1)]]) ∧
    GetSectionContent c3input "section_B2" true 0 =
      .ok { ID := "section_B2", Title := "B", Content := "## B\nb",
            Format := "markdown", IncludeChildren := true } :=
  ⟨rfl, by decide, rfl⟩

/-! ## C8 — totality and totals of extraction -/

/-- C8: structure extraction never fails (the fallible wrapper always
returns `ok`); `total_lines` is the newline count plus one; `total_chars`
is the raw byte count; and when no line of the document is a heading the
section list is empty. -/
theorem C8_extract_total (content : String) (now : Nat) :
    ParseStructureE content now = .ok (ParseStructure content now) ∧
    (ParseStructure content now).TotalLines = countNewlines content + 1 ∧
    (ParseStructure content now).TotalChars = byteLen content ∧
    ((∀ line ∈ splitLines content, headingLevel line = none) →
      (ParseStructure content now).Structure = []) := by
  refine ⟨rfl, rfl, rfl, fun h => ?_⟩
  have he : extractSections content = [] := by
    unfold extractSections
    rw [List.filterMap_eq_nil_iff]
    intro li hli
    rcases List.of_mem_zip hli with ⟨h1, _⟩
    rw [h (li.1) h1]
  simp [ParseStructure, he, calculateSectionBoundaries, buildHierarchy]

/-- C8 (witness): the empty document and a headingless document. -/
theorem C8_extract_total_witness :
    (∀ line ∈ splitLines "just text\nno headings", headingLevel line = none) ∧
    (ParseStructure "just text\nno headings" 7).Structure = [] ∧
    (ParseStructure "" 7).TotalLines = 1 ∧
    (ParseStructure "" 7).TotalChars = 0 :=
  ⟨by decide, (C8_extract_total "just text\nno headings" 7).2.2.2 (by decide),
   (C8_extract_total "" 7).2.1.trans (by decide),
   (C8_extract_total "" 7).2.2.1.trans (by decide)⟩

/-! ## C9 — unknown section IDs -/

/-- C9: when no section of the parsed tree carries the requested ID
(depth-first search misses), `GetSectionContent` fails with the
`section not found` error — an `error` value carrying the offending ID,
never an `ok` (and in particular never an empty success), and textually
distinct from any I/O error (which the callers in the repository format as
`failed to read file ...`). -/
theorem C9_not_found (content sectionID : String) (includeChildren : Bool) (now : Nat)
    (h : findSection (ParseStructure content now).Structure sectionID = none) :
    GetSectionContent content sectionID includeChildren now =
      .error ("section not found: " ++ sectionID) ∧
    (∀ sc : SectionContent,
      GetSectionContent content sectionID includeChildren now ≠ .ok sc) := by
  have hmain : GetSectionContent content sectionID includeChildren now =
      .error ("section not found: " ++ sectionID) := by
    unfold GetSectionContent
    simp only [h]
  exact ⟨hmain, fun sc hc => by rw [hmain] at hc; exact Except.noConfusion hc⟩

/-- C9 (witness): the ID `zzz` occurs nowhere in `c3input`'s tree. -/
theorem C9_not_found_witness :
    findSection (ParseStructure c3input 0).Structure "zzz" = none ∧
    GetSectionContent c3input "zzz" false 0 = .error ("section not found: " ++ "zzz") :=
  ⟨rfl, (C9_not_found c3input "zzz" false 0 rfl).1⟩

/-! ## Cache lemmas -/

theorem evictLRU_ttl (c : Cache) : (evictLRU c).ttl = c.ttl := by
  unfold evictLRU
  split
  · rfl
  · dsimp only
    split <;> rfl

theorem evictLRU_maxSize (c : Cache) : (evictLRU c).maxSize = c.maxSize := by
  unfold evictLRU
  split
  · rfl
  · dsimp only
    split <;> rfl

theorem SetStructure_eq (hash : String → String) (fs : FileSystem) (now : Nat)
    (c : Cache) (path : String) (st : DocumentStructure) (mt : Nat) (content : String)
    (hstat : fs.stat path = some mt) (hread : fs.read path = some content) :
    SetStructure hash fs now c path st =
      { (if c.maxSize ≤ c.structures.length then evictLRU c else c) with structures :=
          ((if c.maxSize ≤ c.structures.length then evictLRU c else c).structures.filter
            fun kv => decide (kv.1 ≠ path)) ++
          [(path, { Structure := st, LastAccessed := now, FileModTime := mt,
                    FileHash := hash content })] } := by
  unfold SetStructure calculateFileHash
  rw [hstat, hread]
  rfl

theorem lookupEntry_filter_append (l : List (String × CacheEntry)) (p : String)
    (e : CacheEntry) :
    lookupEntry ((l.filter fun kv => decide (kv.1 ≠ p)) ++ [(p, e)]) p = some e := by
  induction l with
  | nil => simp [lookupEntry]
  | cons kv rest ih =>
    by_cases h : kv.1 = p
    · simpa [List.filter_cons, h] using ih
    · simpa [List.filter_cons, h, lookupEntry] using ih

/-! ## C6 — set/get round trip and staleness detection -/

/-- C6: storing a structure for a stattable, readable file and reading it
back at the same instant through the same file system returns exactly the
stored structure; and if by the time of the read the file's content hashes
differently (or the file can no longer be read), the read returns nothing —
whatever the read's time and whatever the file's new modification time. -/
theorem C6_set_get (hash : String → String) (fs : FileSystem) (now : Nat)
    (c : Cache) (path : String) (st : DocumentStructure) (mt : Nat) (content : String)
    (hstat : fs.stat path = some mt) (hread : fs.read path = some content) :
    (GetStructure hash fs now (SetStructure hash fs now c path st) path).1 = some st ∧
    (∀ fs' : FileSystem, ∀ now' : Nat,
      (∀ content', fs'.read path = some content' → hash content' ≠ hash content) →
      (GetStructure hash fs' now' (SetStructure hash fs now c path st) path).1 = none) := by
  rw [SetStructure_eq hash fs now c path st mt content hstat hread]
  set c1 := if c.maxSize ≤ c.structures.length then evictLRU c else c with hc1
  set entry : CacheEntry :=
    { Structure := st, LastAccessed := now, FileModTime := mt, FileHash := hash content }
    with hentry
  have hlook : lookupEntry ((c1.structures.filter fun kv => decide (kv.1 ≠ path)) ++
      [(path, entry)]) path = some entry := lookupEntry_filter_append _ _ _
  constructor
  · unfold GetStructure
    rw [hlook]
    have hfresh : isFileUnchanged hash fs path entry = true := by
      unfold isFileUnchanged calculateFileHash
      rw [hstat, hread]
      simp [hentry]
    simp [hfresh, Nat.sub_self]
  · intro fs' now' hdiff
    unfold GetStructure
    rw [hlook]
    have hfresh : isFileUnchanged hash fs' path entry = false := by
      unfold isFileUnchanged calculateFileHash
      cases hstat' : fs'.stat path with
      | none => rfl
      | some mt' =>
        cases hread' : fs'.read path with
        | none => by_cases hmt : mt' = entry.FileModTime <;> simp [hmt]
        | some content' =>
          by_cases hmt : mt' = entry.FileModTime
          · have hne : ¬ hash content' = entry.FileHash := by
              simpa [hentry] using hdiff content' hread'
            simp [hmt, hne]
          · simp [hmt]
    simp [hfresh]

/-- C6 (witness): a concrete one-file system; the second half instantiated
with the changed file system `fsB`. -/
theorem C6_set_get_witness :
    fsA.stat "a.md" = some 5 ∧ fsA.read "a.md" = some "# T\n" ∧
    (GetStructure hashId fsA 9 (SetStructure hashId fsA 9 (NewCache 2 60) "a.md" docT) "a.md").1
      = some docT ∧
    (GetStructure hashId fsB 11 (SetStructure hashId fsA 9 (NewCache 2 60) "a.md" docT) "a.md").1
      = none :=
  ⟨rfl, rfl,
   (C6_set_get hashId fsA 9 (NewCache 2 60) "a.md" docT 5 "# T\n" rfl rfl).1,
   (C6_set_get hashId fsA 9 (NewCache 2 60) "a.md" docT 5 "# T\n" rfl rfl).2 fsB 11
     (by intro content' h hh; simp [fsB] at h; simp [hashId, ← h] at hh)⟩

/-! ## C7 — LRU eviction at capacity -/

theorem key_unique (l : List (String × CacheEntry))
    (hnodup : (l.map Prod.fst).Nodup) :
    ∀ p q : String × CacheEntry, p ∈ l → q ∈ l → p.1 = q.1 → p = q := by
  induction l with
  | nil => intro p q hp _ _; cases hp
  | cons a rest ih =>
    rw [List.map_cons, List.nodup_cons] at hnodup
    intro p q hp hq hpq
    rcases List.mem_cons.mp hp with hp | hp <;> rcases List.mem_cons.mp hq with hq | hq
    · rw [hp, hq]
    · exfalso
      have hqmem : q.1 ∈ rest.map Prod.fst := List.mem_map_of_mem Prod.fst hq
      rw [← hpq, hp] at hqmem
      exact hnodup.1 hqmem
    · exfalso
      have hpmem : p.1 ∈ rest.map Prod.fst := List.mem_map_of_mem Prod.fst hp
      rw [hpq, hq] at hpmem
      exact hnodup.1 hpmem
    · exact ih hnodup.2 p q hp hq hpq

theorem lruStep_foldl_member : ∀ (l : List (String × CacheEntry)) (init : String × Nat),
    l.foldl lruStep init = init ∨
      ∃ kv ∈ l, l.foldl lruStep init = (kv.1, kv.2.LastAccessed) := by
  intro l
  induction l with
  | nil => intro init; exact .inl rfl
  | cons kv rest ih =>
    intro init
    rw [List.foldl_cons]
    rcases ih (lruStep init kv) with h | ⟨kv', hkv', h⟩
    · rw [h]
      unfold lruStep
      split
      · exact .inr ⟨kv, List.mem_cons_self _ _, rfl⟩
      · exact .inl rfl
    · exact .inr ⟨kv', List.mem_cons_of_mem _ hkv', h⟩

theorem lruStep_foldl_min : ∀ (l : List (String × CacheEntry)) (init : String × Nat),
    1 ≤ init.2 → (∀ kv ∈ l, 1 ≤ kv.2.LastAccessed) →
    (l.foldl lruStep init).2 ≤ init.2 ∧
      (∀ kv ∈ l, (l.foldl lruStep init).2 ≤ kv.2.LastAccessed) ∧
      1 ≤ (l.foldl lruStep init).2 := by
  intro l
  induction l with
  | nil =>
    intro init h1 _
    exact ⟨Nat.le_refl _, ⟨fun kv hkv => absurd hkv (List.not_mem_nil kv), h1⟩⟩
  | cons kv rest ih =>
    intro init h1 hall
    rw [List.foldl_cons]
    have hkv1 : 1 ≤ kv.2.LastAccessed := hall kv (List.mem_cons_self _ _)
    have hstep : 1 ≤ (lruStep init kv).2 ∧ (lruStep init kv).2 ≤ init.2 ∧
        (lruStep init kv).2 ≤ kv.2.LastAccessed := by
      unfold lruStep
      split
      · next hcond =>
        rcases hcond with hz | hlt
        · omega
        · exact ⟨hkv1, Nat.le_of_lt hlt, Nat.le_refl _⟩
      · next hcond =>
        push_neg at hcond
        exact ⟨h1, Nat.le_refl _, hcond.2⟩
    obtain ⟨ha, hb, hc⟩ :=
      ih (lruStep init kv) hstep.1 (fun x hx => hall x (List.mem_cons_of_mem _ hx))
    refine ⟨Nat.le_trans ha hstep.2.1, ?_, hc⟩
    intro x hx
    rcases List.mem_cons.mp hx with hx | hx
    · subst hx
      exact Nat.le_trans ha hstep.2.2
    · exact hb x hx

theorem lruScan_eq (l : List (String × CacheEntry)) (k : String) (e : CacheEntry)
    (hmem : (k, e) ∈ l)
    (huniq : ∀ kv ∈ l, kv.1 ≠ k → e.LastAccessed < kv.2.LastAccessed)
    (hpos : ∀ kv ∈ l, 1 ≤ kv.2.LastAccessed)
    (hnodup : (l.map Prod.fst).Nodup) :
    lruScan l = (k, e.LastAccessed) := by
  obtain ⟨kv0, rest, rfl⟩ : ∃ kv0 rest, l = kv0 :: rest := by
    cases l with
    | nil => cases hmem
    | cons a r => exact ⟨a, r, rfl⟩
  have hfirst : lruStep ("", 0) kv0 = (kv0.1, kv0.2.LastAccessed) := by
    unfold lruStep
    simp
  have hscan : lruScan (kv0 :: rest) = (kv0 :: rest).foldl lruStep ("", 0) := rfl
  rw [hscan, List.foldl_cons, hfirst]
  have hmin := lruStep_foldl_min rest (kv0.1, kv0.2.LastAccessed)
    (hpos kv0 (List.mem_cons_self _ _)) (fun x hx => hpos x (List.mem_cons_of_mem _ hx))
  have hmem' : ∀ kv ∈ kv0 :: rest,
      (rest.foldl lruStep (kv0.1, kv0.2.LastAccessed)).2 ≤ kv.2.LastAccessed := by
    intro kv hkv
    rcases List.mem_cons.mp hkv with hkv | hkv
    · exact hkv ▸ hmin.1
    · exact hmin.2.1 kv hkv
  rcases lruStep_foldl_member rest (kv0.1, kv0.2.LastAccessed) with h | ⟨kv', hkv', h⟩
  · by_cases hk : kv0.1 = k
    · have he : kv0 = (k, e) :=
        key_unique _ hnodup kv0 (k, e) (List.mem_cons_self _ _) hmem hk
      rw [h, he]
    · exfalso
      have h1 : e.LastAccessed < kv0.2.LastAccessed :=
        huniq kv0 (List.mem_cons_self _ _) hk
      have h2 := hmem' (k, e) hmem
      rw [h] at h2
      simp at h2
      omega
  · by_cases hk : kv'.1 = k
    · have he : kv' = (k, e) := key_unique _ hnodup kv' (k, e)
        (List.mem_cons_of_mem _ hkv') hmem hk
      rw [h, he]
    · exfalso
      have h1 : e.LastAccessed < kv'.2.LastAccessed :=
        huniq kv' (List.mem_cons_of_mem _ hkv') hk
      have h2 := hmem' (k, e) hmem
      rw [h] at h2
      simp at h2
      omega

theorem evictLRU_eq (c : Cache) (k : String) (e : CacheEntry)
    (hmem : (k, e) ∈ c.structures)
    (huniq : ∀ kv ∈ c.structures, kv.1 ≠ k → e.LastAccessed < kv.2.LastAccessed)
    (hpos : ∀ kv ∈ c.structures, 1 ≤ kv.2.LastAccessed)
    (hnodup : (c.structures.map Prod.fst).Nodup)
    (hk : k ≠ "") :
    evictLRU c =
      { c with structures := c.structures.filter (fun kv => decide (kv.1 ≠ k)) } := by
  have hscan : lruScan c.structures = (k, e.LastAccessed) :=
    lruScan_eq c.structures k e hmem huniq hpos hnodup
  unfold evictLRU
  split
  · next heq => rw [heq] at hmem; cases hmem
  · dsimp only
    rw [hscan]
    simp [hk]

/-- C7: when the cache is exactly at its configured capacity and an entry is
inserted under a fresh key (the file statting and reading successfully),
the resulting table is the old table with exactly the entry whose
last-access timestamp is the unique global minimum removed — every other
entry is kept unchanged, and the new entry is appended.  The hypotheses
record the source's operating conditions: last-access times are
`time.Now()` values (never the zero time), keys are paths that passed the
access gate (never empty), the map keys are unique, and the oldest
timestamp is uniquely attained (Go map iteration order is unspecified, so a
tie is resolved arbitrarily in the source). -/
theorem C7_evicts_lru (hash : String → String) (fs : FileSystem) (now : Nat)
    (c : Cache) (path : String) (st : DocumentStructure) (mt : Nat) (content : String)
    (k : String) (e : CacheEntry)
    (hstat : fs.stat path = some mt) (hread : fs.read path = some content)
    (hfull : c.structures.length = c.maxSize)
    (hnew : ∀ kv ∈ c.structures, kv.1 ≠ path)
    (hmem : (k, e) ∈ c.structures)
    (huniq : ∀ kv ∈ c.structures, kv.1 ≠ k → e.LastAccessed < kv.2.LastAccessed)
    (hpos : ∀ kv ∈ c.structures, 1 ≤ kv.2.LastAccessed)
    (hnodup : (c.structures.map Prod.fst).Nodup)
    (hk : k ≠ "") :
    SetStructure hash fs now c path st =
      { c with structures :=
          (c.structures.filter fun kv => decide (kv.1 ≠ k)) ++
          [(path, { Structure := st, LastAccessed := now, FileModTime := mt,
                    FileHash := hash content })] } := by
  rw [SetStructure_eq hash fs now c path st mt content hstat hread]
  rw [if_pos (le_of_eq hfull.symm)]
  rw [evictLRU_eq c k e hmem huniq hpos hnodup hk]
  have hfilter : (c.structures.filter fun kv => decide (kv.1 ≠ k)).filter
      (fun kv => decide (kv.1 ≠ path)) =
      c.structures.filter fun kv => decide (kv.1 ≠ k) := by
    rw [List.filter_eq_self]
    intro kv hkv
    exact decide_eq_true (hnew kv (List.mem_of_mem_filter hkv))
  dsimp only
  rw [hfilter]

/-- C7 (witness): a two-entry cache at capacity 2; inserting `a.md` evicts
exactly `old.md` (last accessed at 1, versus 4 for `new.md`). -/
theorem C7_evicts_lru_witness :
    c7cache.structures.length = c7cache.maxSize ∧
    (SetStructure hashId fsA 9 c7cache "a.md" docT).structures.map Prod.fst
      = ["new.md", "a.md"] := by
  constructor
  · rfl
  · rw [C7_evicts_lru hashId fsA 9 c7cache "a.md" docT 5 "# T\n" "old.md"
      { Structure := docT, LastAccessed := 1, FileModTime := 1, FileHash := "x" }
      rfl rfl rfl (by decide) (List.Mem.head _) (by decide) (by decide) (by decide)
      (by decide)]
    rfl

/-! ## C10 — capacity invariant and failed-set inertness -/

theorem length_filter_lt {α} (p : α → Bool) (l : List α) (x : α)
    (hx : x ∈ l) (hpx : p x = false) : (l.filter p).length < l.length := by
  induction l with
  | nil => cases hx
  | cons a rest ih =>
    rcases List.mem_cons.mp hx with h | h
    · subst h
      rw [List.filter_cons, if_neg (by simp [hpx])]
      exact Nat.lt_of_le_of_lt (List.length_filter_le _ _) (by simp)
    · rw [List.filter_cons]
      by_cases hpa : p a
      · simp only [if_pos hpa, List.length_cons]
        exact Nat.succ_lt_succ (ih h)
      · simp only [if_neg hpa]
        exact Nat.lt_of_lt_of_le (ih h) (by simp)

theorem lruScan_mem (l : List (String × CacheEntry)) (hne : l ≠ []) :
    ∃ kv ∈ l, lruScan l = (kv.1, kv.2.LastAccessed) := by
  obtain ⟨kv0, rest, rfl⟩ : ∃ kv0 rest, l = kv0 :: rest := by
    cases l with
    | nil => exact absurd rfl hne
    | cons a r => exact ⟨a, r, rfl⟩
  have hfirst : lruStep ("", 0) kv0 = (kv0.1, kv0.2.LastAccessed) := by
    unfold lruStep
    simp
  have hscan : lruScan (kv0 :: rest) = rest.foldl lruStep (kv0.1, kv0.2.LastAccessed) := by
    rw [show lruScan (kv0 :: rest) = (kv0 :: rest).foldl lruStep ("", 0) from rfl,
      List.foldl_cons, hfirst]
  rcases lruStep_foldl_member rest (kv0.1, kv0.2.LastAccessed) with h | ⟨kv', hkv', h⟩
  · exact ⟨kv0, List.mem_cons_self _ _, hscan.trans h⟩
  · exact ⟨kv', List.mem_cons_of_mem _ hkv', hscan.trans h⟩

theorem evictLRU_mem_of_mem (c : Cache) :
    ∀ kv ∈ (evictLRU c).structures, kv ∈ c.structures := by
  unfold evictLRU
  split
  · exact fun kv h => h
  · dsimp only
    split
    · exact fun kv h => List.mem_of_mem_filter h
    · exact fun kv h => h

theorem evictLRU_length_lt (c : Cache) (hne : c.structures ≠ [])
    (hkeys : ∀ kv ∈ c.structures, kv.1 ≠ "") :
    (evictLRU c).structures.length < c.structures.length := by
  obtain ⟨kv, hkv, hscan⟩ := lruScan_mem c.structures hne
  unfold evictLRU
  split
  · next heq => exact absurd heq hne
  · dsimp only
    rw [hscan]
    rw [if_pos (by simp [hkeys kv hkv])]
    exact length_filter_lt _ _ kv hkv (by simp)

theorem GetStructure_snd_pres (hash : String → String) (fs : FileSystem) (now : Nat)
    (c : Cache) (path : String) :
    ((GetStructure hash fs now c path).2).structures.map Prod.fst
        = c.structures.map Prod.fst ∧
      ((GetStructure hash fs now c path).2).maxSize = c.maxSize ∧
      ((GetStructure hash fs now c path).2).ttl = c.ttl := by
  unfold GetStructure
  split
  · exact ⟨rfl, rfl, rfl⟩
  · split
    · exact ⟨rfl, rfl, rfl⟩
    · split
      · exact ⟨rfl, rfl, rfl⟩
      · refine ⟨?_, rfl, rfl⟩
        dsimp only
        rw [List.map_map]
        refine List.map_congr_left (fun kv _ => ?_)
        by_cases h : kv.1 = path <;> simp [h]

theorem SetStructure_inv (hash : String → String) (fs : FileSystem) (now : Nat)
    (c : Cache) (path : String) (st : DocumentStructure)
    (hstat0 : fs.stat "" = none)
    (hlen : c.structures.length ≤ c.maxSize)
    (hkeys : ∀ kv ∈ c.structures, kv.1 ≠ "")
    (hms : 1 ≤ c.maxSize) :
    (SetStructure hash fs now c path st).structures.length ≤ c.maxSize ∧
      (∀ kv ∈ (SetStructure hash fs now c path st).structures, kv.1 ≠ "") ∧
      (SetStructure hash fs now c path st).maxSize = c.maxSize ∧
      (SetStructure hash fs now c path st).ttl = c.ttl := by
  unfold SetStructure calculateFileHash
  cases hstat : fs.stat path with
  | none => exact ⟨hlen, hkeys, rfl, rfl⟩
  | some mt =>
    cases hread : fs.read path with
    | none => exact ⟨hlen, hkeys, rfl, rfl⟩
    | some content =>
      have hpath : path ≠ "" := by
        intro h
        rw [h, hstat0] at hstat
        cases hstat
      dsimp only [Option.map]
      by_cases hcap : c.maxSize ≤ c.structures.length
      · rw [if_pos hcap]
        have hne : c.structures ≠ [] := by
          intro h
          rw [h] at hcap
          simp at hcap
          omega
        have hlt := evictLRU_length_lt c hne hkeys
        refine ⟨?_, ?_, evictLRU_maxSize c, evictLRU_ttl c⟩
        · have h1 : ((evictLRU c).structures.filter
              (fun kv => decide (kv.1 ≠ path))).length ≤ (evictLRU c).structures.length :=
            List.length_filter_le _ _
          rw [List.length_append]
          simp only [List.length_cons, List.length_nil]
          omega
        · intro kv hkv
          rcases List.mem_append.mp hkv with h | h
          · exact hkeys kv (evictLRU_mem_of_mem c kv (List.mem_of_mem_filter h))
          · rcases List.mem_cons.mp h with h | h
            · rw [h]
              exact hpath
            · cases h
      · rw [if_neg hcap]
        refine ⟨?_, ?_, rfl, rfl⟩
        · have h1 : (c.structures.filter
              (fun kv => decide (kv.1 ≠ path))).length ≤ c.structures.length :=
            List.length_filter_le _ _
          rw [List.length_append]
          simp only [List.length_cons, List.length_nil]
          omega
        · intro kv hkv
          rcases List.mem_append.mp hkv with h | h
          · exact hkeys kv (List.mem_of_mem_filter h)
          · rcases List.mem_cons.mp h with h | h
            · rw [h]
              exact hpath
            · cases h

theorem applyOp_inv (hash : String → String) (c : Cache) (op : CacheOp)
    (hop : statEmptyFails op)
    (hlen : c.structures.length ≤ c.maxSize)
    (hkeys : ∀ kv ∈ c.structures, kv.1 ≠ "")
    (hms : 1 ≤ c.maxSize) :
    (applyOp hash c op).structures.length ≤ c.maxSize ∧
      (∀ kv ∈ (applyOp hash c op).structures, kv.1 ≠ "") ∧
      (applyOp hash c op).maxSize = c.maxSize := by
  cases op with
  | set fs now p st =>
    obtain ⟨h1, h2, h3, _⟩ := SetStructure_inv hash fs now c p st hop hlen hkeys hms
    exact ⟨h1, h2, h3⟩
  | get fs now p =>
    obtain ⟨h1, h2, _⟩ := GetStructure_snd_pres hash fs now c p
    refine ⟨?_, ?_, h2⟩
    · have hl := congrArg List.length h1
      simp only [List.length_map] at hl
      exact Nat.le_trans (Nat.le_of_eq hl) hlen
    · intro kv hkv
      have hm : kv.1 ∈ ((GetStructure hash fs now c p).2).structures.map Prod.fst :=
        List.mem_map_of_mem Prod.fst hkv
      rw [h1] at hm
      obtain ⟨kv', hkv', hfst⟩ := List.mem_map.mp hm
      rw [← hfst]
      exact hkeys kv' hkv'
  | invalidate p =>
    refine ⟨Nat.le_trans (List.length_filter_le _ _) hlen, ?_, rfl⟩
    intro kv hkv
    exact hkeys kv (List.mem_of_mem_filter hkv)
  | clear => exact ⟨Nat.zero_le _, fun kv hkv => absurd hkv (List.not_mem_nil kv), rfl⟩

theorem runOps_inv (hash : String → String) : ∀ (ops : List CacheOp) (c : Cache),
    (∀ op ∈ ops, statEmptyFails op) →
    c.structures.length ≤ c.maxSize → (∀ kv ∈ c.structures, kv.1 ≠ "") →
    1 ≤ c.maxSize →
    (runOps hash c ops).structures.length ≤ (runOps hash c ops).maxSize ∧
      (runOps hash c ops).maxSize = c.maxSize := by
  intro ops
  induction ops with
  | nil => intro c _ hlen _ _; exact ⟨hlen, rfl⟩
  | cons op rest ih =>
    intro c hops hlen hkeys hms
    obtain ⟨h1, h2, h3⟩ :=
      applyOp_inv hash c op (hops op (List.mem_cons_self _ _)) hlen hkeys hms
    have hrun : runOps hash c (op :: rest) = runOps hash (applyOp hash c op) rest := rfl
    rw [hrun]
    obtain ⟨g1, g2⟩ := ih (applyOp hash c op)
      (fun o ho => hops o (List.mem_cons_of_mem _ ho))
      (h3 ▸ h1) h2 (h3 ▸ hms)
    exact ⟨g1, g2.trans h3⟩

/-- C10: starting from a freshly constructed cache, no sequence of set, get,
invalidate and clear operations ever pushes the entry count above the
configured maximum (provided every operation's file system rejects the
empty path, as `os.Stat` does); and a `set` whose stat or read (hence hash)
fails leaves the cache — in particular its table — completely unchanged:
nothing is added and nothing is evicted. -/
theorem C10_capacity (hash : String → String) (maxSize ttl : Nat) (ops : List CacheOp)
    (hops : ∀ op ∈ ops, statEmptyFails op) :
    (runOps hash (NewCache maxSize ttl) ops).structures.length
        ≤ (NewCache maxSize ttl).maxSize ∧
      (∀ fs now path st c', fs.stat path = none →
        SetStructure hash fs now c' path st = c') ∧
      (∀ fs now path st c', fs.stat path ≠ none → fs.read path = none →
        SetStructure hash fs now c' path st = c') := by
  refine ⟨?_, ?_, ?_⟩
  · have hms : 1 ≤ (NewCache maxSize ttl).maxSize := by
      unfold NewCache
      dsimp only
      split <;> omega
    obtain ⟨h1, h2⟩ := runOps_inv hash ops (NewCache maxSize ttl) hops
      (by simp [NewCache]) (by simp [NewCache]) hms
    rw [← h2]
    exact h1
  · intro fs now path st c' h
    unfold SetStructure
    rw [h]
  · intro fs now path st c' hstat hread
    unfold SetStructure calculateFileHash
    cases h : fs.stat path with
    | none => rfl
    | some mt =>
      rw [hread]
      rfl

/-- C10 (witness): a concrete four-operation history on a cache of
capacity 1, and a failed set (unknown path) leaving a cache unchanged. -/
theorem C10_capacity_witness :
    (∀ op ∈ [CacheOp.set fsA 1 "a.md" docT, CacheOp.set fsB 2 "b.md" docT,
        CacheOp.get fsA 3 "a.md", CacheOp.invalidate "b.md"], statEmptyFails op) ∧
    (runOps hashId (NewCache 1 60)
        [CacheOp.set fsA 1 "a.md" docT, CacheOp.set fsB 2 "b.md" docT,
         CacheOp.get fsA 3 "a.md", CacheOp.invalidate "b.md"]).structures.length
      ≤ (NewCache 1 60).maxSize ∧
    fsA.stat "missing.md" = none ∧
    SetStructure hashId fsA 4 c7cache "missing.md" docT = c7cache :=
  ⟨by intro op hop; fin_cases hop <;> simp [statEmptyFails, fsA, fsB],
   (C10_capacity hashId 1 60 _
     (by intro op hop; fin_cases hop <;> simp [statEmptyFails, fsA, fsB])).1,
   rfl,
   (C10_capacity hashId 1 60 []
     (by intro op hop; cases hop)).2.1 fsA 4 "missing.md" docT c7cache rfl⟩

/-! ## C4 — the boundary rule -/

theorem find?_split {α} (p : α → Bool) : ∀ (l : List α) (a : α), l.find? p = some a →
    ∃ pre post, l = pre ++ a :: post ∧ (∀ x ∈ pre, p x = false) ∧ p a = true := by
  intro l
  induction l with
  | nil => intro a h; cases h
  | cons b rest ih =>
    intro a h
    by_cases hb : p b
    · rw [List.find?_cons_of_pos _ hb] at h
      cases h
      exact ⟨[], rest, rfl, fun x hx => absurd hx (List.not_mem_nil x), hb⟩
    · rw [List.find?_cons_of_neg _ hb] at h
      obtain ⟨pre, post, heq, hpre, hpa⟩ := ih a h
      exact ⟨b :: pre, post, by rw [heq, List.cons_append], by
        intro x hx
        rcases List.mem_cons.mp hx with hx | hx
        · rw [hx]
          exact Bool.eq_false_iff.mpr hb
        · exact hpre x hx, hpa⟩

theorem calcBounds_append (content : String) : ∀ (A R : List Section),
    ∃ outA, calculateSectionBoundaries content (A ++ R)
        = outA ++ calculateSectionBoundaries content R ∧
      outA.length = A.length := by
  intro A
  induction A with
  | nil => intro R; exact ⟨[], rfl, rfl⟩
  | cons a A' ih =>
    intro R
    obtain ⟨outA', h, hlen⟩ := ih R
    refine ⟨boundOne content a (A' ++ R) :: outA', ?_, by simp [hlen]⟩
    rw [List.cons_append]
    show boundOne content a (A' ++ R) :: calculateSectionBoundaries content (A' ++ R) = _
    rw [h, List.cons_append]

/-- C4: for an ordered flat heading list (start lines strictly increasing,
each within the document, as extraction guarantees), the boundary
calculation maps each occurrence to a section with the same ID, level,
title and start line whose end line is (start line − 1) of the first later
occurrence at the same or a shallower level when one exists, and the
document's last line (the `strings.Split` line count) otherwise; in either
case `end_line ≥ start_line`. -/
theorem C4_boundary_rule (content : String) (sections : List Section)
    (hsorted : List.Pairwise (fun a b => a.StartLine < b.StartLine) sections)
    (hbounds : ∀ s ∈ sections,
      1 ≤ s.StartLine ∧ s.StartLine ≤ (splitLines content).length) :
    ∀ A s R, sections = A ++ s :: R →
      ∃ outA e outR,
        calculateSectionBoundaries content sections = outA ++ e :: outR ∧
        outA.length = A.length ∧
        e.ID = s.ID ∧ e.Level = s.Level ∧ e.Title = s.Title ∧
        e.StartLine = s.StartLine ∧
        ((∃ pre t post, R = pre ++ t :: post ∧ (∀ x ∈ pre, s.Level < x.Level) ∧
            t.Level ≤ s.Level ∧ e.EndLine = t.StartLine - 1) ∨
          ((∀ x ∈ R, s.Level < x.Level) ∧
            e.EndLine = (splitLines content).length)) ∧
        s.StartLine ≤ e.EndLine := by
  intro A s R heq
  obtain ⟨outA, hout, hlen⟩ := calcBounds_append content A (s :: R)
  rw [heq, hout]
  refine ⟨outA, boundOne content s R, calculateSectionBoundaries content R,
    rfl, hlen, rfl, rfl, rfl, rfl, ?_, ?_⟩
  · unfold boundOne
    cases hf : R.find? (fun t => decide (t.Level ≤ s.Level)) with
    | some t =>
      obtain ⟨pre, post, hR, hpre, hpt⟩ := find?_split _ R t hf
      refine .inl ⟨pre, t, post, hR, ?_, by simpa using hpt, by simp⟩
      intro x hx
      have := hpre x hx
      simp at this
      omega
    | none =>
      refine .inr ⟨?_, by simp⟩
      intro x hx
      have := List.find?_eq_none.mp hf x hx
      simp at this
      omega
  · have hs : s ∈ sections := by
      rw [heq]
      exact List.mem_append_right A (List.mem_cons_self _ _)
    have hsR : List.Pairwise (fun a b => a.StartLine < b.StartLine) (s :: R) := by
      refine List.Pairwise.sublist ?_ hsorted
      rw [heq]
      exact List.sublist_append_right A (s :: R)
    unfold boundOne
    cases hf : R.find? (fun t => decide (t.Level ≤ s.Level)) with
    | some t =>
      have ht : t ∈ R := List.mem_of_find?_eq_some hf
      have hlt : s.StartLine < t.StartLine := (List.pairwise_cons.mp hsR).1 t ht
      have h1 : 1 ≤ s.StartLine := (hbounds s hs).1
      dsimp only
      exact Nat.le_pred_of_lt hlt
    | none =>
      have := (hbounds s hs).2
      dsimp only
      omega

/-- C4 (witness): the extracted heading list of `c1input`, at its first
occurrence `# A`. -/
theorem C4_boundary_rule_witness :
    List.Pairwise (fun a b => a.StartLine < b.StartLine) (extractSections c1input) ∧
    (∀ s ∈ extractSections c1input,
      1 ≤ s.StartLine ∧ s.StartLine ≤ (splitLines c1input).length) ∧
    ∃ outA e outR,
      calculateSectionBoundaries c1input (extractSections c1input)
        = outA ++ e :: outR ∧
      outA.length = ([] : List Section).length ∧
      e.ID = (initialSection 1 "A" 1).ID ∧
      e.Level = (initialSection 1 "A" 1).Level ∧
      e.Title = (initialSection 1 "A" 1).Title ∧
      e.StartLine = (initialSection 1 "A" 1).StartLine ∧
      ((∃ pre t post,
          [initialSection 2 "B" 3, initialSection 2 "C" 7] = pre ++ t :: post ∧
          (∀ x ∈ pre, (initialSection 1 "A" 1).Level < x.Level) ∧
          t.Level ≤ (initialSection 1 "A" 1).Level ∧
          e.EndLine = t.StartLine - 1) ∨
        ((∀ x ∈ [initialSection 2 "B" 3, initialSection 2 "C" 7],
            (initialSection 1 "A" 1).Level < x.Level) ∧
          e.EndLine = (splitLines c1input).length)) ∧
      (initialSection 1 "A" 1).StartLine ≤ e.EndLine :=
  ⟨by decide, by decide,
   C4_boundary_rule c1input (extractSections c1input) (by decide) (by decide)
     [] (initialSection 1 "A" 1) [initialSection 2 "B" 3, initialSection 2 "C" 7] (by rfl)⟩

/-! ## The stack fold of `buildHierarchy` equals the span recursion -/

theorem withChildren_self (t : Section) : ({ t with Children := t.Children } : Section) = t := by
  cases t
  rfl

theorem takeWhile_takeWhile_of_le (a b : Nat) (hab : a ≤ b) : ∀ l : List Section,
    (l.takeWhile (fun y => decide (a < y.Level))).takeWhile (fun y => decide (b < y.Level))
      = l.takeWhile (fun y => decide (b < y.Level)) := by
  intro l
  induction l with
  | nil => rfl
  | cons y ys ih =>
    by_cases hb : b < y.Level
    · have ha : a < y.Level := Nat.lt_of_le_of_lt hab hb
      simp only [List.takeWhile_cons, decide_eq_true ha, decide_eq_true hb, if_true]
      rw [ih]
    · by_cases ha : a < y.Level
      · simp [List.takeWhile_cons, ha, hb]
      · simp [List.takeWhile_cons, ha, hb]

theorem takeWhile_dropWhile_of_le (a b : Nat) (hab : a ≤ b) : ∀ l : List Section,
    (l.takeWhile (fun y => decide (a < y.Level))).dropWhile (fun y => decide (b < y.Level))
      = (l.dropWhile (fun y => decide (b < y.Level))).takeWhile
          (fun y => decide (a < y.Level)) := by
  intro l
  induction l with
  | nil => rfl
  | cons y ys ih =>
    by_cases hb : b < y.Level
    · have ha : a < y.Level := Nat.lt_of_le_of_lt hab hb
      simp [List.takeWhile_cons, List.dropWhile_cons, ha, hb, ih]
    · by_cases ha : a < y.Level
      · simp [List.takeWhile_cons, List.dropWhile_cons, ha, hb]
      · simp [List.takeWhile_cons, List.dropWhile_cons, ha, hb]

theorem dropWhile_dropWhile_of_le (a b : Nat) (hab : a ≤ b) : ∀ l : List Section,
    l.dropWhile (fun y => decide (a < y.Level))
      = (l.dropWhile (fun y => decide (b < y.Level))).dropWhile
          (fun y => decide (a < y.Level)) := by
  intro l
  induction l with
  | nil => rfl
  | cons y ys ih =>
    by_cases hb : b < y.Level
    · have ha : a < y.Level := Nat.lt_of_le_of_lt hab hb
      simp [List.dropWhile_cons, ha, hb, ih]
    · simp [List.dropWhile_cons, hb]

theorem popAux_eq_popWhile (lv : Nat) (t : Section) (stack res : List Section) :
    popAux lv t stack res =
      popWhile lv (popOnce stack res t).1 (popOnce stack res t).2 := by
  cases stack with
  | nil =>
    show ([], res ++ [t]) = popWhile lv [] (res ++ [t])
    rfl
  | cons p rs => rfl

theorem popWhile_cons_pop (lv : Nat) (t : Section) (stack res : List Section)
    (h : lv ≤ t.Level) :
    popWhile lv (t :: stack) res =
      popWhile lv (popOnce stack res t).1 (popOnce stack res t).2 := by
  rw [show popWhile lv (t :: stack) res
      = if lv ≤ t.Level then popAux lv t stack res else (t :: stack, res) from rfl]
  rw [if_pos h, popAux_eq_popWhile]

theorem buildStep_pop (t : Section) (stack res : List Section) (x : Section)
    (hx : x.Level ≤ t.Level) :
    buildStep (t :: stack, res) x = buildStep (popOnce stack res t) x := by
  unfold buildStep
  rw [show (t :: stack, res).1 = t :: stack from rfl,
    show (t :: stack, res).2 = res from rfl,
    popWhile_cons_pop x.Level t stack res hx]

theorem buildSpan_nil : buildSpan [] = [] := by
  simp [buildSpan]

theorem buildSpan_cons (s : Section) (rest : List Section) :
    buildSpan (s :: rest) =
      { s with Children := buildSpan (rest.takeWhile (fun t => decide (s.Level < t.Level))) } ::
        buildSpan (rest.dropWhile (fun t => decide (s.Level < t.Level))) := by
  rw [buildSpan]

theorem finishFold_cons : ∀ (n : Nat) (l : List Section), l.length ≤ n →
    ∀ (t : Section) (stack res : List Section),
    finishFold (t :: stack) res l =
      finishFold
        (popOnce stack res
          { t with Children := t.Children ++
              buildSpan (l.takeWhile (fun x => decide (t.Level < x.Level))) }).1
        (popOnce stack res
          { t with Children := t.Children ++
              buildSpan (l.takeWhile (fun x => decide (t.Level < x.Level))) }).2
        (l.dropWhile (fun x => decide (t.Level < x.Level))) := by
  intro n
  induction n with
  | zero =>
    intro l hl t stack res
    have : l = [] := List.length_eq_zero.mp (Nat.le_zero.mp hl)
    subst this
    simp only [List.takeWhile_nil, List.dropWhile_nil, buildSpan_nil, List.append_nil,
      withChildren_self]
    cases stack with
    | nil => rfl
    | cons p rs => rfl
  | succ n ih =>
    intro l hl t stack res
    cases l with
    | nil =>
      simp only [List.takeWhile_nil, List.dropWhile_nil, buildSpan_nil, List.append_nil,
        withChildren_self]
      cases stack with
      | nil => rfl
      | cons p rs => rfl
    | cons x xs =>
      by_cases hlt : t.Level < x.Level
      · -- x opens a subsection of t
        have hstep : finishFold (t :: stack) res (x :: xs) =
            finishFold ({ x with Children := [] } :: t :: stack) res xs := by
          unfold finishFold
          rw [List.foldl_cons]
          have hb : buildStep (t :: stack, res) x =
              ({ x with Children := [] } :: t :: stack, res) := by
            unfold buildStep
            rw [show (t :: stack, res).1 = t :: stack from rfl,
              show (t :: stack, res).2 = res from rfl,
              show popWhile x.Level (t :: stack) res
                = if x.Level ≤ t.Level then popAux x.Level t stack res
                  else (t :: stack, res) from rfl,
              if_neg (Nat.not_le_of_lt hlt)]
          rw [hb]
        rw [hstep, ih xs (by simpa using hl) { x with Children := [] } (t :: stack) res]
        have hxl : ({ x with Children := [] } : Section).Level = x.Level := rfl
        rw [hxl]
        set dx := xs.takeWhile (fun y => decide (x.Level < y.Level)) with hdx
        set sibsx := xs.dropWhile (fun y => decide (x.Level < y.Level)) with hsibsx
        have hxt : ({ x with Children := [] } : Section).Children ++ buildSpan dx
            = buildSpan dx := by simp
        rw [show popOnce (t :: stack) res
              { x with Children := ({ x with Children := [] } : Section).Children ++ buildSpan dx }
            = ({ t with Children := t.Children ++
                  [{ x with Children := buildSpan dx }] } :: stack, res) from by
          rw [hxt]
          rfl]
        rw [ih sibsx (Nat.le_trans (Nat.le_trans (List.dropWhile_sublist _).length_le
          (Nat.le_refl _)) (by simpa using hl))
          { t with Children := t.Children ++ [{ x with Children := buildSpan dx }] } stack res]
        have htl : ({ t with Children := t.Children ++
            [{ x with Children := buildSpan dx }] } : Section).Level = t.Level := rfl
        rw [htl]
        -- identify the desc run and the siblings of t
        have hd : (x :: xs).takeWhile (fun y => decide (t.Level < y.Level))
            = x :: xs.takeWhile (fun y => decide (t.Level < y.Level)) := by
          rw [List.takeWhile_cons, decide_eq_true hlt]
          simp
        have hsibs : (x :: xs).dropWhile (fun y => decide (t.Level < y.Level))
            = xs.dropWhile (fun y => decide (t.Level < y.Level)) := by
          rw [List.dropWhile_cons, decide_eq_true hlt]
          simp
        rw [hd, hsibs]
        have hab : t.Level ≤ x.Level := Nat.le_of_lt hlt
        have hspan : buildSpan (x :: xs.takeWhile (fun y => decide (t.Level < y.Level)))
            = { x with Children := buildSpan dx } ::
              buildSpan (sibsx.takeWhile (fun y => decide (t.Level < y.Level))) := by
          rw [buildSpan_cons]
          rw [hdx, hsibsx]
          rw [takeWhile_takeWhile_of_le t.Level x.Level hab xs,
            takeWhile_dropWhile_of_le t.Level x.Level hab xs]
        rw [hspan]
        have hchildren :
            (t.Children ++ [{ x with Children := buildSpan dx }]) ++
              buildSpan (sibsx.takeWhile (fun y => decide (t.Level < y.Level)))
            = t.Children ++
              ({ x with Children := buildSpan dx } ::
                buildSpan (sibsx.takeWhile (fun y => decide (t.Level < y.Level)))) := by
          rw [List.append_assoc]
          rfl
        rw [hchildren]
        rw [← dropWhile_dropWhile_of_le t.Level x.Level hab xs]
      · -- x closes t
        have hd : (x :: xs).takeWhile (fun y => decide (t.Level < y.Level)) = [] := by
          rw [List.takeWhile_cons]
          simp [hlt]
        have hsibs : (x :: xs).dropWhile (fun y => decide (t.Level < y.Level)) = x :: xs := by
          rw [List.dropWhile_cons]
          simp [hlt]
        rw [hd, hsibs, buildSpan_nil, List.append_nil, withChildren_self]
        show finishFold (t :: stack) res (x :: xs) = _
        unfold finishFold
        rw [List.foldl_cons, List.foldl_cons,
          buildStep_pop t stack res x (Nat.le_of_not_lt hlt)]

theorem finishFold_nil_stack : ∀ (n : Nat) (l : List Section), l.length ≤ n →
    ∀ res : List Section, finishFold [] res l = res ++ buildSpan l := by
  intro n
  induction n with
  | zero =>
    intro l hl res
    have : l = [] := List.length_eq_zero.mp (Nat.le_zero.mp hl)
    subst this
    rw [buildSpan_nil]
    simp [finishFold, drain]
  | succ n ih =>
    intro l hl res
    cases l with
    | nil =>
      rw [buildSpan_nil]
      simp [finishFold, drain]
    | cons x xs =>
      have hstep : finishFold [] res (x :: xs) =
          finishFold ({ x with Children := [] } :: []) res xs := by
        unfold finishFold
        rw [List.foldl_cons]
        rfl
      rw [hstep, finishFold_cons n xs (by simpa using hl) { x with Children := [] } [] res]
      have hxl : ({ x with Children := [] } : Section).Level = x.Level := rfl
      rw [hxl]
      set dx := xs.takeWhile (fun y => decide (x.Level < y.Level)) with hdx
      set sibsx := xs.dropWhile (fun y => decide (x.Level < y.Level)) with hsibsx
      have hxt : ({ x with Children := [] } : Section).Children ++ buildSpan dx
          = buildSpan dx := by simp
      rw [show popOnce [] res
            { x with Children := ({ x with Children := [] } : Section).Children ++ buildSpan dx }
          = ([], res ++ [{ x with Children := buildSpan dx }]) from by
        rw [hxt]
        rfl]
      rw [ih sibsx (Nat.le_trans (List.dropWhile_sublist _).length_le (by simpa using hl)) _]
      rw [buildSpan_cons, hdx, hsibsx]
      simp

theorem buildHierarchy_eq_buildSpan (l : List Section) :
    buildHierarchy l = buildSpan l := by
  unfold buildHierarchy
  cases l with
  | nil => rw [buildSpan_nil]; rfl
  | cons x xs =>
    rw [if_neg (by simp)]
    exact finishFold_nil_stack (x :: xs).length _ (Nat.le_refl _) []

/-! ## Provenance of tree nodes in the flat occurrence list -/

theorem erase_fields (a b : Section) (h : eraseChildren a = eraseChildren b) :
    a.ID = b.ID ∧ a.Level = b.Level ∧ a.Title = b.Title ∧ a.StartLine = b.StartLine ∧
      a.EndLine = b.EndLine := by
  have h1 := congrArg Section.ID h
  have h2 := congrArg Section.Level h
  have h3 := congrArg Section.Title h
  have h4 := congrArg Section.StartLine h
  have h5 := congrArg Section.EndLine h
  exact ⟨h1, h2, h3, h4, h5⟩

theorem withChildren_Children (s : Section) (ch : List Section) :
    ({ s with Children := ch } : Section).Children = ch := rfl

theorem eraseChildren_withChildren (s : Section) (ch : List Section) :
    eraseChildren { s with Children := ch } = eraseChildren s := rfl

theorem dropWhile_head_false {α} (p : α → Bool) : ∀ (l : List α) (y : α) (ys : List α),
    l.dropWhile p = y :: ys → p y = false := by
  intro l
  induction l with
  | nil => intro y ys h; cases h
  | cons a as ih =>
    intro y ys h
    rw [List.dropWhile_cons] at h
    by_cases hp : p a
    · rw [if_pos hp] at h
      exact ih y ys h
    · rw [if_neg hp] at h
      cases h
      exact Bool.eq_false_iff.mpr hp

theorem buildSpan_flatten_erase : ∀ (n : Nat) (l : List Section), l.length ≤ n →
    (flattenSections (buildSpan l)).map eraseChildren = l.map eraseChildren := by
  intro n
  induction n with
  | zero =>
    intro l hl
    have : l = [] := List.length_eq_zero.mp (Nat.le_zero.mp hl)
    subst this
    rw [buildSpan_nil, flattenSections_nil]
  | succ n ih =>
    intro l hl
    cases l with
    | nil => rw [buildSpan_nil, flattenSections_nil]
    | cons s rest =>
      rw [buildSpan_cons, flattenSections_cons]
      have hd := ih (rest.takeWhile (fun t => decide (s.Level < t.Level)))
        (Nat.le_trans (List.takeWhile_sublist _).length_le (by simpa using hl))
      have hs := ih (rest.dropWhile (fun t => decide (s.Level < t.Level)))
        (Nat.le_trans (List.dropWhile_sublist _).length_le (by simpa using hl))
      rw [List.map_cons, List.map_append, withChildren_Children, hd, hs,
        eraseChildren_withChildren, ← List.map_append,
        List.takeWhile_append_dropWhile, ← List.map_cons]

theorem mem_takeWhile_level (s : Section) : ∀ (l : List Section) (x : Section),
    x ∈ l.takeWhile (fun t => decide (s.Level < t.Level)) → s.Level < x.Level := by
  intro l
  induction l with
  | nil => intro x hx; cases hx
  | cons a as ih =>
    intro x hx
    rw [List.takeWhile_cons] at hx
    by_cases ha : s.Level < a.Level
    · rw [if_pos (by simpa using ha)] at hx
      rcases List.mem_cons.mp hx with hx | hx
      · rw [hx]
        exact ha
      · exact ih x hx
    · rw [if_neg (by simpa using ha)] at hx
      cases hx

theorem buildSpan_root_prov : ∀ (n : Nat) (l : List Section), l.length ≤ n →
    ∀ c ∈ buildSpan l, ∃ l₁ c₀ l₂, l = l₁ ++ c₀ :: l₂ ∧
      eraseChildren c = eraseChildren c₀ ∧ ∀ x ∈ l₁, c.Level ≤ x.Level := by
  intro n
  induction n with
  | zero =>
    intro l hl c hc
    have : l = [] := List.length_eq_zero.mp (Nat.le_zero.mp hl)
    subst this
    rw [buildSpan_nil] at hc
    cases hc
  | succ n ih =>
    intro l hl c hc
    cases l with
    | nil =>
      rw [buildSpan_nil] at hc
      cases hc
    | cons s rest =>
      rw [buildSpan_cons] at hc
      rcases List.mem_cons.mp hc with hc | hc
      · exact ⟨[], s, rest, rfl, by rw [hc]; rfl,
          fun x hx => absurd hx (List.not_mem_nil x)⟩
      · obtain ⟨l₁, c₀, l₂, hdec, her, hlev⟩ :=
          ih (rest.dropWhile (fun t => decide (s.Level < t.Level)))
            (Nat.le_trans (List.dropWhile_sublist _).length_le (by simpa using hl)) c hc
        have hcLevel : c.Level = c₀.Level := (erase_fields c c₀ her).2.1
        have hcs : c.Level ≤ s.Level := by
          cases hq : rest.dropWhile (fun t => decide (s.Level < t.Level)) with
          | nil =>
            rw [hq] at hdec
            exact absurd hdec.symm (by simp)
          | cons y ys =>
            have hys : y.Level ≤ s.Level := by
              simpa using dropWhile_head_false _ rest y ys hq
            have hyd : y :: ys = l₁ ++ c₀ :: l₂ := hq.symm.trans hdec
            cases l₁ with
            | nil =>
              have hyc : y = c₀ := by
                simpa using congrArg (fun t => t.head?) hyd
              rw [hyc] at hys
              omega
            | cons z zs =>
              have hz : y = z := by
                simpa using congrArg (fun t => t.head?) hyd
              have hcz : c.Level ≤ z.Level := hlev z (List.mem_cons_self _ _)
              rw [hz] at hys
              omega
        refine ⟨s :: (rest.takeWhile (fun t => decide (s.Level < t.Level)) ++ l₁),
          c₀, l₂, ?_, her, ?_⟩
        · rw [List.cons_append, List.append_assoc, ← hdec, List.takeWhile_append_dropWhile]
        · intro x hx
          rcases List.mem_cons.mp hx with hx | hx
          · rw [hx]
            exact hcs
          · rcases List.mem_append.mp hx with hx | hx
            · exact Nat.le_trans hcs (Nat.le_of_lt (mem_takeWhile_level s rest x hx))
            · exact hlev x hx

theorem buildSpan_node_prov : ∀ (n : Nat) (l : List Section), l.length ≤ n →
    ∀ p ∈ flattenSections (buildSpan l),
      ∃ pre p₀ dRun post, l = pre ++ p₀ :: (dRun ++ post) ∧
        eraseChildren p = eraseChildren p₀ ∧
        p.Children = buildSpan dRun ∧
        (∀ x ∈ dRun, p₀.Level < x.Level) := by
  intro n
  induction n with
  | zero =>
    intro l hl p hp
    have : l = [] := List.length_eq_zero.mp (Nat.le_zero.mp hl)
    subst this
    rw [buildSpan_nil, flattenSections_nil] at hp
    cases hp
  | succ n ih =>
    intro l hl p hp
    cases l with
    | nil =>
      rw [buildSpan_nil, flattenSections_nil] at hp
      cases hp
    | cons s rest =>
      rw [buildSpan_cons, flattenSections_cons] at hp
      rcases List.mem_cons.mp hp with hp | hp
      · refine ⟨[], s, rest.takeWhile (fun t => decide (s.Level < t.Level)),
          rest.dropWhile (fun t => decide (s.Level < t.Level)), ?_, ?_, ?_, ?_⟩
        · rw [List.nil_append, List.takeWhile_append_dropWhile]
        · rw [hp]
          rfl
        · rw [hp]
        · exact fun x hx => mem_takeWhile_level s rest x hx
      · rcases List.mem_append.mp hp with hp | hp
        · -- p lies in the subtree of s
          obtain ⟨pre, p₀, dRun, post, hdec, her, hch, hlev⟩ :=
            ih (rest.takeWhile (fun t => decide (s.Level < t.Level)))
              (Nat.le_trans (List.takeWhile_sublist _).length_le (by simpa using hl)) p
              (by
                rw [withChildren_Children] at hp
                exact hp)
          refine ⟨s :: pre, p₀, dRun,
            post ++ rest.dropWhile (fun t => decide (s.Level < t.Level)), ?_, her, hch, hlev⟩
          rw [List.cons_append]
          rw [show p₀ :: (dRun ++ (post ++ rest.dropWhile
              (fun t => decide (s.Level < t.Level))))
            = (p₀ :: (dRun ++ post)) ++ rest.dropWhile
                (fun t => decide (s.Level < t.Level)) from by
            rw [List.cons_append, List.append_assoc]]
          rw [← List.append_assoc, ← hdec, List.takeWhile_append_dropWhile]
        · -- p lies among the later siblings of s
          obtain ⟨pre, p₀, dRun, post, hdec, her, hch, hlev⟩ :=
            ih (rest.dropWhile (fun t => decide (s.Level < t.Level)))
              (Nat.le_trans (List.dropWhile_sublist _).length_le (by simpa using hl)) p hp
          refine ⟨s :: (rest.takeWhile (fun t => decide (s.Level < t.Level)) ++ pre),
            p₀, dRun, post, ?_, her, hch, hlev⟩
          rw [List.cons_append, List.append_assoc, ← hdec, List.takeWhile_append_dropWhile]

/-! ## Boundary coherence of the flat list -/

theorem occKey_Level {a b : Section} (h : occKey a = occKey b) : a.Level = b.Level := by
  have h2 := congrArg (fun k : String × Nat × String × Nat => k.2.1) h
  exact h2

theorem calcBounds_occKey (content : String) : ∀ l : List Section,
    (calculateSectionBoundaries content l).map occKey = l.map occKey := by
  intro l
  induction l with
  | nil => rfl
  | cons s rest ih =>
    rw [show calculateSectionBoundaries content (s :: rest)
        = boundOne content s rest :: calculateSectionBoundaries content rest from rfl,
      List.map_cons, List.map_cons, ih]
    rfl

theorem calcBounds_startLines (content : String) (l : List Section) :
    (calculateSectionBoundaries content l).map (fun s => s.StartLine)
      = l.map (fun s => s.StartLine) := by
  have h := congrArg (List.map (fun k : String × Nat × String × Nat => k.2.2.2))
    (calcBounds_occKey content l)
  rw [List.map_map, List.map_map] at h
  exact h

theorem calcBounds_sorted (content : String) (l : List Section)
    (hsorted : List.Pairwise (fun a b => a.StartLine < b.StartLine) l) :
    List.Pairwise (fun a b => a.StartLine < b.StartLine)
      (calculateSectionBoundaries content l) := by
  have h1 : (l.map (fun s => s.StartLine)).Pairwise (· < ·) :=
    List.pairwise_map.mpr hsorted
  rw [← calcBounds_startLines content l] at h1
  exact List.pairwise_map.mp h1

theorem calcBounds_inv (content : String) : ∀ (A' l R' : List Section),
    calculateSectionBoundaries content l = A' ++ R' →
    ∃ A R, l = A ++ R ∧ calculateSectionBoundaries content R = R' ∧
      A.map occKey = A'.map occKey := by
  intro A'
  induction A' with
  | nil => intro l R' h; exact ⟨[], l, rfl, h, rfl⟩
  | cons a A'' ih =>
    intro l R' h
    cases l with
    | nil => exact List.noConfusion h
    | cons x xs =>
      rw [show calculateSectionBoundaries content (x :: xs)
          = boundOne content x xs :: calculateSectionBoundaries content xs from rfl,
        List.cons_append] at h
      injection h with h1 h2
      obtain ⟨A2, R, hxs, hR, hkey⟩ := ih xs R' h2
      refine ⟨x :: A2, R, by rw [hxs, List.cons_append], hR, ?_⟩
      rw [List.map_cons, List.map_cons, hkey, ← h1]
      rfl

theorem find?_append_none {α} (p : α → Bool) : ∀ (A B : List α),
    (∀ x ∈ A, p x = false) → (A ++ B).find? p = B.find? p := by
  intro A
  induction A with
  | nil => intro B _; rfl
  | cons a A' ih =>
    intro B h
    rw [List.cons_append, List.find?_cons_of_neg _ (by simp [h a (List.mem_cons_self _ _)]),
      ih B (fun x hx => h x (List.mem_cons_of_mem a hx))]

theorem calcBounds_coherent (content : String) (sections : List Section)
    (hsorted : List.Pairwise (fun a b => a.StartLine < b.StartLine) sections)
    (hbounds : ∀ s ∈ sections, s.StartLine ≤ (splitLines content).length) :
    ∀ FA s M t FB,
      calculateSectionBoundaries content sections = FA ++ s :: (M ++ t :: FB) →
      (∀ x ∈ M, s.Level < x.Level) → s.Level < t.Level →
      t.EndLine ≤ s.EndLine := by
  intro FA s M t FB hflat hM hst
  obtain ⟨A, R, hsec, hcalcR, _⟩ := calcBounds_inv content FA sections (s :: (M ++ t :: FB)) hflat
  cases R with
  | nil => exact List.noConfusion hcalcR
  | cons x xs =>
    rw [show calculateSectionBoundaries content (x :: xs)
        = boundOne content x xs :: calculateSectionBoundaries content xs from rfl] at hcalcR
    injection hcalcR with hx1 hx2
    obtain ⟨M₀, R₂, hxs, hcalcR₂, hMkey⟩ := calcBounds_inv content M xs (t :: FB) hx2
    cases R₂ with
    | nil => exact List.noConfusion hcalcR₂
    | cons t₀ R₃ =>
      rw [show calculateSectionBoundaries content (t₀ :: R₃)
          = boundOne content t₀ R₃ :: calculateSectionBoundaries content R₃ from rfl] at hcalcR₂
      injection hcalcR₂ with ht1 ht2
      have hsx : s.Level = x.Level := by rw [← hx1]; rfl
      have htt : t.Level = t₀.Level := by rw [← ht1]; rfl
      have hM₀ : ∀ m ∈ M₀, x.Level < m.Level := by
        intro m hm
        have hmm : occKey m ∈ M₀.map occKey := List.mem_map_of_mem occKey hm
        rw [hMkey] at hmm
        obtain ⟨m', hm', hk⟩ := List.mem_map.mp hmm
        have hm'l := hM m' hm'
        have hLev : m'.Level = m.Level := occKey_Level hk
        omega
      have hsE : s.EndLine =
          (match xs.find? (fun u => decide (u.Level ≤ x.Level)) with
            | some u => u.StartLine - 1
            | none => (splitLines content).length) := by
        rw [← hx1]
        rfl
      have htE : t.EndLine =
          (match R₃.find? (fun u => decide (u.Level ≤ t₀.Level)) with
            | some u => u.StartLine - 1
            | none => (splitLines content).length) := by
        rw [← ht1]
        rfl
      have hxt₀ : x.Level < t₀.Level := by omega
      have hfind : xs.find? (fun u => decide (u.Level ≤ x.Level))
          = R₃.find? (fun u => decide (u.Level ≤ x.Level)) := by
        rw [hxs, find?_append_none _ M₀ _
          (fun m hm => decide_eq_false (Nat.not_le_of_lt (hM₀ m hm))),
          List.find?_cons_of_neg _ (by simp; omega)]
      cases h2 : R₃.find? (fun u => decide (u.Level ≤ t₀.Level)) with
      | none =>
        have h1 : R₃.find? (fun u => decide (u.Level ≤ x.Level)) = none := by
          rw [List.find?_eq_none] at h2 ⊢
          intro u hu
          have hu2 := h2 u hu
          simp at hu2 ⊢
          omega
        rw [hsE, htE, hfind, h1, h2]
      | some u =>
        cases h1 : R₃.find? (fun u => decide (u.Level ≤ x.Level)) with
        | none =>
          rw [hsE, htE, hfind, h1, h2]
          have hu : u ∈ R₃ := List.mem_of_find?_eq_some h2
          have humem : u ∈ sections := by
            rw [hsec, hxs]
            refine List.mem_append_right A ?_
            refine List.mem_cons_of_mem x ?_
            refine List.mem_append_right M₀ ?_
            exact List.mem_cons_of_mem t₀ hu
          exact Nat.le_trans (Nat.sub_le _ _) (hbounds u humem)
        | some v =>
          rw [hsE, htE, hfind, h1, h2]
          obtain ⟨P, S, hR₃, hP, _⟩ := find?_split _ R₃ u h2
          have h1' : (u :: S).find? (fun w => decide (w.Level ≤ x.Level)) = some v := by
            rw [hR₃, find?_append_none _ P _ ?_] at h1
            · exact h1
            · intro w hw
              have hPw := hP w hw
              simp at hPw ⊢
              omega
          by_cases hu1 : u.Level ≤ x.Level
          · rw [List.find?_cons_of_pos _ (by simpa using hu1)] at h1'
            injection h1' with h1''
            rw [h1'']
          · rw [List.find?_cons_of_neg _ (by simpa using hu1)] at h1'
            have hv : v ∈ S := List.mem_of_find?_eq_some h1'
            have hpair : List.Pairwise (fun a b => a.StartLine < b.StartLine) (u :: S) := by
              refine List.Pairwise.sublist ?_ hsorted
              rw [hsec, hxs, hR₃]
              refine List.Sublist.trans (List.sublist_append_right P _) ?_
              refine List.Sublist.trans ?_ (List.sublist_append_right A _)
              refine List.Sublist.trans ?_ (List.sublist_cons_self x _)
              refine List.Sublist.trans ?_ (List.sublist_append_right M₀ _)
              exact List.sublist_cons_self t₀ _
            have huv := (List.pairwise_cons.mp hpair).1 v hv
            exact Nat.sub_le_sub_right (Nat.le_of_lt huv) 1

/-! ## C5 — hierarchy invariants -/

theorem mem_pairsOf (l : List Section) (pc : Section × Section) (h : pc ∈ pairsOf l) :
    pc.1 ∈ flattenSections l ∧ pc.2 ∈ pc.1.Children := by
  unfold pairsOf at h
  rw [List.mem_flatten] at h
  obtain ⟨L, hL, hpc⟩ := h
  obtain ⟨p, hp, hfp⟩ := List.mem_map.mp hL
  rw [← hfp] at hpc
  obtain ⟨c, hc, hpcc⟩ := List.mem_map.mp hpc
  rw [← hpcc]
  exact ⟨hp, hc⟩

/-- C5: the hierarchy built over the boundary-annotated occurrence list of
any document (hypotheses as in `C4_boundary_rule`; the levels are left
completely unconstrained, covering inconsistently nested documents such as
an H3 before any H1) satisfies: (1) every direct child's level is strictly
greater than its parent's, and the parent's line span contains the child's
(`parent.start < child.start` and `child.end ≤ parent.end`, hence by
transitivity every descendant's span); (2) the pre-order flattening of the
tree carries exactly the flat occurrence list (children erased) — every
occurrence appears in exactly one place of the tree, so a child belongs to
exactly one parent; (3) for every parent/child pair the flat list splits as
`l₀ ++ parent :: (l₁ ++ child :: l₂)` where everything strictly between
them has level ≥ the child's (and the parent's level is smaller) — the
parent is the nearest preceding heading with strictly smaller level. -/
theorem C5_hierarchy (content : String) (sections : List Section)
    (hsorted : List.Pairwise (fun a b => a.StartLine < b.StartLine) sections)
    (hbounds : ∀ s ∈ sections,
      1 ≤ s.StartLine ∧ s.StartLine ≤ (splitLines content).length) :
    (∀ pc ∈ pairsOf (buildHierarchy (calculateSectionBoundaries content sections)),
        pc.1.Level < pc.2.Level ∧ pc.1.StartLine < pc.2.StartLine ∧
        pc.2.EndLine ≤ pc.1.EndLine) ∧
    (flattenSections
        (buildHierarchy (calculateSectionBoundaries content sections))).map eraseChildren
      = (calculateSectionBoundaries content sections).map eraseChildren ∧
    (∀ pc ∈ pairsOf (buildHierarchy (calculateSectionBoundaries content sections)),
      ∃ l₀ P₀ l₁ C₀ l₂,
        calculateSectionBoundaries content sections = l₀ ++ P₀ :: (l₁ ++ C₀ :: l₂) ∧
        eraseChildren pc.1 = eraseChildren P₀ ∧ eraseChildren pc.2 = eraseChildren C₀ ∧
        pc.1.Level < pc.2.Level ∧
        (∀ x ∈ l₁, pc.2.Level ≤ x.Level)) := by
  have hdecomp : ∀ pc ∈ pairsOf (buildHierarchy (calculateSectionBoundaries content sections)),
      ∃ pre p₀ l₁ c₀ l₂,
        calculateSectionBoundaries content sections = pre ++ p₀ :: (l₁ ++ c₀ :: l₂) ∧
        eraseChildren pc.1 = eraseChildren p₀ ∧ eraseChildren pc.2 = eraseChildren c₀ ∧
        (∀ x ∈ l₁, p₀.Level < x.Level) ∧ p₀.Level < c₀.Level ∧
        (∀ x ∈ l₁, pc.2.Level ≤ x.Level) := by
    intro pc hpc
    rw [buildHierarchy_eq_buildSpan] at hpc
    obtain ⟨hp, hc⟩ := mem_pairsOf _ pc hpc
    obtain ⟨pre, p₀, dRun, post, hd1, her1, hch, hlev1⟩ :=
      buildSpan_node_prov (calculateSectionBoundaries content sections).length
        (calculateSectionBoundaries content sections) (Nat.le_refl _) pc.1 hp
    rw [hch] at hc
    obtain ⟨l₁, c₀, l₂, hd2, her2, hlev2⟩ :=
      buildSpan_root_prov dRun.length dRun (Nat.le_refl _) pc.2 hc
    refine ⟨pre, p₀, l₁, c₀, l₂ ++ post, ?_, her1, her2, ?_, ?_, hlev2⟩
    · rw [hd1, hd2, List.append_assoc, List.cons_append]
    · intro x hx
      exact hlev1 x (by rw [hd2]; exact List.mem_append_left _ hx)
    · exact hlev1 c₀ (by
        rw [hd2]
        exact List.mem_append_right l₁ (List.mem_cons_self _ _))
  refine ⟨?_, ?_, ?_⟩
  · intro pc hpc
    obtain ⟨pre, p₀, l₁, c₀, l₂, hdec, her1, her2, hlev1, hpc0, _⟩ := hdecomp pc hpc
    obtain ⟨_, hpl, _, hps, hpe⟩ := erase_fields _ _ her1
    obtain ⟨_, hcl, _, hcs, hce⟩ := erase_fields _ _ her2
    refine ⟨by omega, ?_, ?_⟩
    · have hpair := calcBounds_sorted content sections hsorted
      rw [hdec] at hpair
      have hsuffix : List.Pairwise (fun a b => a.StartLine < b.StartLine)
          (p₀ :: (l₁ ++ c₀ :: l₂)) :=
        List.Pairwise.sublist (List.sublist_append_right pre _) hpair
      have hlt := (List.pairwise_cons.mp hsuffix).1 c₀
        (List.mem_append_right l₁ (List.mem_cons_self _ _))
      omega
    · have hco := calcBounds_coherent content sections hsorted
        (fun u hu => (hbounds u hu).2) pre p₀ l₁ c₀ l₂ hdec hlev1 hpc0
      omega
  · rw [buildHierarchy_eq_buildSpan]
    exact buildSpan_flatten_erase (calculateSectionBoundaries content sections).length
      (calculateSectionBoundaries content sections) (Nat.le_refl _)
  · intro pc hpc
    obtain ⟨pre, p₀, l₁, c₀, l₂, hdec, her1, her2, _, hpc0, hlev2⟩ := hdecomp pc hpc
    have h1 : pc.1.Level = p₀.Level := (erase_fields _ _ her1).2.1
    have h2 : pc.2.Level = c₀.Level := (erase_fields _ _ her2).2.1
    exact ⟨pre, p₀, l₁, c₀, l₂, hdec, her1, her2, by omega, hlev2⟩

/-- C5 (witness): the tree of `c3input` — `A` with children `B` and
`C`, and `D` below `C`. -/
theorem C5_hierarchy_witness :
    List.Pairwise (fun a b => a.StartLine < b.StartLine) (extractSections c3input) ∧
    (∀ s ∈ extractSections c3input,
      1 ≤ s.StartLine ∧ s.StartLine ≤ (splitLines c3input).length) ∧
    (∀ pc ∈ pairsOf (buildHierarchy
        (calculateSectionBoundaries c3input (extractSections c3input))),
      pc.1.Level < pc.2.Level ∧ pc.1.StartLine < pc.2.StartLine ∧
      pc.2.EndLine ≤ pc.1.EndLine) :=
  ⟨by decide, by decide,
   (C5_hierarchy c3input (extractSections c3input) (by decide) (by decide)).1⟩

/-! ## C2 — determinism of extraction -/

theorem occKey_ID {a b : Section} (h : occKey a = occKey b) : a.ID = b.ID := by
  have h2 := congrArg (fun k : String × Nat × String × Nat => k.1) h
  exact h2

theorem occKey_Title {a b : Section} (h : occKey a = occKey b) : a.Title = b.Title := by
  have h2 := congrArg (fun k : String × Nat × String × Nat => k.2.2.1) h
  exact h2

theorem extract_ID (content : String) : ∀ y ∈ extractSections content,
    y.ID = generateSectionID y.Level y.Title := by
  intro y hy
  unfold extractSections at hy
  obtain ⟨li, _, hf⟩ := List.mem_filterMap.mp hy
  cases hl : headingLevel li.1 with
  | none => rw [hl] at hf; cases hf
  | some lvl =>
    rw [hl] at hf
    injection hf with hf
    rw [← hf]
    rfl

theorem tree_ID (content : String) : ∀ s ∈ flattenSections
    (buildHierarchy (calculateSectionBoundaries content (extractSections content))),
    s.ID = generateSectionID s.Level s.Title := by
  intro s hs
  have h1 : eraseChildren s ∈ (flattenSections (buildHierarchy
      (calculateSectionBoundaries content (extractSections content)))).map eraseChildren :=
    List.mem_map_of_mem eraseChildren hs
  have heq : (flattenSections (buildHierarchy
      (calculateSectionBoundaries content (extractSections content)))).map eraseChildren
      = (calculateSectionBoundaries content (extractSections content)).map eraseChildren := by
    rw [buildHierarchy_eq_buildSpan]
    exact buildSpan_flatten_erase
      (calculateSectionBoundaries content (extractSections content)).length
      (calculateSectionBoundaries content (extractSections content)) (Nat.le_refl _)
  rw [heq] at h1
  obtain ⟨x, hx, hex⟩ := List.mem_map.mp h1
  obtain ⟨hid, hlev, htit, _, _⟩ := erase_fields x s hex
  have h2 : occKey x ∈ (calculateSectionBoundaries content (extractSections content)).map occKey :=
    List.mem_map_of_mem occKey hx
  rw [calcBounds_occKey] at h2
  obtain ⟨y, hy, hky⟩ := List.mem_map.mp h2
  have hyID := extract_ID content y hy
  rw [← hid, ← occKey_ID hky, hyID, occKey_Level hky, occKey_Title hky, hlev, htit]

/-- C2 (counterexample): extracting the same bytes at two different instants
does NOT yield identical Document Structures overall — the structure records
the wall-clock time of the extraction (`LastModified := time.Now()` in
`ParseStructure`), which differs between the two runs. -/
theorem C2_counterexample : ParseStructure "# A\n" 0 ≠ ParseStructure "# A\n" 1 := by
  intro h
  have h2 := congrArg DocumentStructure.LastModified h
  exact absurd h2 (by decide)

/-- C2 (amended): extraction is deterministic and side-effect free given
identical input bytes, except for the last-modified field, which records
the extraction instant: two runs on the same bytes agree on the section
tree, the totals and the file path; every section's ID in the tree is the
pure function `generateSectionID` of its level and title, so identical
(title, level) pairs receive identical IDs across the two runs. -/
theorem C2_determinism (content : String) (t₁ t₂ : Nat) :
    (ParseStructure content t₁).Structure = (ParseStructure content t₂).Structure ∧
    (ParseStructure content t₁).TotalChars = (ParseStructure content t₂).TotalChars ∧
    (ParseStructure content t₁).TotalLines = (ParseStructure content t₂).TotalLines ∧
    (ParseStructure content t₁).FilePath = (ParseStructure content t₂).FilePath ∧
    (ParseStructure content t₁).LastModified = t₁ ∧
    (∀ s ∈ flattenSections (ParseStructure content t₁).Structure,
      s.ID = generateSectionID s.Level s.Title) ∧
    (∀ s₁ ∈ flattenSections (ParseStructure content t₁).Structure,
      ∀ s₂ ∈ flattenSections (ParseStructure content t₂).Structure,
      s₁.Title = s₂.Title → s₁.Level = s₂.Level → s₁.ID = s₂.ID) := by
  refine ⟨rfl, rfl, rfl, rfl, rfl, tree_ID content, ?_⟩
  intro s₁ h₁ s₂ h₂ ht hl
  rw [tree_ID content s₁ h₁, tree_ID content s₂ h₂, ht, hl]

end Mdatlas
